import Mathlib

/-!
Verification development for the structured-output extraction and bounded
fan-out orchestration core of the Kahuna-Kid repository.

The Python sources embedded here (shallowly, over `List Char` for text) are:

* `classes/infrastructure/StructuredOutputChain.py`, function
  `create_completion_parser` / inner `completion_parser` (continuation
  controller: degenerate-output guard, run collapsing, completeness heuristic,
  continuation loop);
* `classes/infrastructure/PromptOrchestratorSidekick.py`, method
  `md_table_to_pydantic_list` (markdown-table extraction: sanitize, block
  detection, itemized-row merging, positional type coercion);
* `classes/infrastructure/PromptOrchestratorAgent.py`, methods `invoke_many`
  (ordered fail-fast fan-out) and `invoke_many_agent` (aggregate-partial
  fan-out), plus a transition system for the `asyncio.Semaphore` admission
  limiter used by both.

Text is modelled as `List Char`; Python string methods (`strip`, `split`,
`replace`, `rstrip`, `lower`, `isdigit`) are translated as executable
functions below, restricted to the ASCII behaviour the code relies on.
-/

/-- Python text, modelled as a list of characters. -/
abbrev Str := List Char

/-- Python whitespace characters (`str.strip` default set, ASCII part). -/
def isWS (c : Char) : Bool :=
  c = ' ' || c = '\t' || c = '\n' || c = '\r' || c = '\x0b' || c = '\x0c'

/-- Python `str.lstrip()`. -/
def lstripWS (s : Str) : Str := s.dropWhile isWS

/-- Python `str.rstrip()`. -/
def rstripWS (s : Str) : Str := (s.reverse.dropWhile isWS).reverse

/-- Python `str.strip()`. -/
def pyStrip (s : Str) : Str := rstripWS (lstripWS s)

/-- Python `str.lower()` (ASCII). -/
def lowerStr (s : Str) : Str := s.map Char.toLower

/-- Python `str.split(sep)` for a single-character separator: every
occurrence splits, empty pieces kept. -/
def splitChar (sep : Char) : Str → List Str
  | [] => [[]]
  | c :: t =>
    match splitChar sep t with
    | [] => [[]]
    | h :: r => if c = sep then [] :: h :: r else (c :: h) :: r

/-- Python `str.replace(ab, rep)` for a two-character pattern `ab`:
left-to-right, non-overlapping. -/
def replace2 (a b : Char) (rep : Str) : Str → Str
  | [] => []
  | [c] => [c]
  | c :: d :: t =>
    if c = a ∧ d = b then rep ++ replace2 a b rep t
    else c :: replace2 a b rep (d :: t)

/-- Python `str.replace(abc, rep)` for a three-character pattern. -/
def replace3 (a b c : Char) (rep : Str) : Str → Str
  | [] => []
  | [x] => [x]
  | [x, y] => [x, y]
  | x :: y :: z :: t =>
    if x = a ∧ y = b ∧ z = c then rep ++ replace3 a b c rep t
    else x :: replace3 a b c rep (y :: z :: t)

/-- Remove every character equal to `ch` (Python `str.replace(ch, "")`). -/
def dropChar (ch : Char) (s : Str) : Str := s.filter (fun c => c ≠ ch)

/-- Python `sub in s` (substring containment). -/
def containsSub (pat : Str) : Str → Bool
  | [] => pat.isEmpty
  | c :: t => pat.isPrefixOf (c :: t) || containsSub pat t

/-- Python `str.isdigit()` restricted to ASCII digits: non-empty and all
digits. -/
def isDigitStr (s : Str) : Bool := !s.isEmpty && s.all (fun c => c.isDigit)

/-- Numeric value of an all-digit string (Python `int(...)` on an
`isdigit` string). -/
def digitsToNat (s : Str) : Nat :=
  s.foldl (fun acc c => acc * 10 + (c.toNat - 48)) 0

/-!
## Continuation controller
Embedding of `completion_parser` from `StructuredOutputChain.py`
(`create_completion_parser`, lines 141-233). The Gateway is modelled by a
script `conts : Nat → Except Unit Str` giving the reply to the k-th
continuation request (`.error` = the `llm.invoke` call raised). The
schema-aware output repair (`fixing_parser.parse`) is an external
collaborator: the model stops at the assembled text handed to it.
-/

/-- End-of-output configuration: `none` = heuristic terminal characters,
`some toks` = explicit end-token set (`completion_expected_end_token`). -/
abbrev EndTok := Option (List Str)

/-- The heuristic terminal characters of `is_complete`
(`StructuredOutputChain.py` line 122). -/
def heuristicEnds : List Char :=
  ['.', ';', '!', '?', '`', '\x7d', '\n', '|', '-', '*', '\x22', '\x27',
   '>', ']', '”', '/', '】']

/-- `is_complete` (`StructuredOutputChain.py` lines 116-125): strip, empty
is incomplete, then end-token or heuristic last-character test. -/
def isComplete (tok : EndTok) (text : Str) : Bool :=
  let s := pyStrip text
  if s.isEmpty then false
  else
    match tok with
    | none =>
      match s.getLast? with
      | none => false
      | some c => heuristicEnds.contains c
    | some toks => toks.any (fun t => t.isSuffixOf s)

/-- Emit a tracked run of `n` copies of the space or dash `c`, capped at
100 copies. -/
def emitRun (c : Char) (n : Nat) : Str := List.replicate (min n 100) c

/-- Walk the text tracking the current run of spaces or dashes (`some
(c, n)` = `n` pending copies of `c`), emitting each maximal run capped at
100. -/
def collapseGo : Option (Char × Nat) → Str → Str
  | none, [] => []
  | some (c, n), [] => emitRun c n
  | none, x :: t =>
    if x = ' ' ∨ x = '-' then collapseGo (some (x, 1)) t
    else x :: collapseGo none t
  | some (c, n), x :: t =>
    if x = c then collapseGo (some (c, n + 1)) t
    else if x = ' ' ∨ x = '-' then emitRun c n ++ collapseGo (some (x, 1)) t
    else emitRun c n ++ x :: collapseGo none t

/-- Cap every maximal run of more than 100 identical space or dash
characters at exactly 100 (the two regex loops at
`StructuredOutputChain.py` lines 181-196; capping each maximal run is what
the repeated first-match rewriting computes). -/
def collapseRuns (s : Str) : Str := collapseGo none s

/-- The compacted form of the degenerate-output guard: spaces and dashes
removed (`compact = current_completion.replace(" ", "").replace("-", "")`). -/
def compactOf (s : Str) : Str := s.filter (fun c => c ≠ ' ' && c ≠ '-')

/-- The degenerate-output test applied by `completion_parser` (lines
198-200) to the stripped first reply: compacted length zero, or
collapsed-length over compacted-length (integer division, floor) at least
9. -/
def degenCheck (cc : Str) : Bool :=
  (compactOf cc).length = 0 ||
    decide ((collapseRuns cc).length / max 1 (compactOf cc).length ≥ 9)

/-- The sentinel reply that stops continuation without being appended. -/
def sentinelStr : Str := "completed.".data

/-- Outcome of one `completion_parser` run: `degenerate` and `exhausted`
are the two `ValueError` raises, `ok` carries the assembled text handed to
the output-repair step. -/
inductive CPOutcome : Type
  | degenerate : CPOutcome
  | exhausted : CPOutcome
  | ok : Str → CPOutcome
deriving DecidableEq, Repr

/-- Result of a run together with the number of continuation requests the
controller issued to the Gateway. -/
structure CPResult : Type where
  outcome : CPOutcome
  requests : Nat
deriving DecidableEq, Repr

/-- The continuation loop (`while current_completion.lower() != "completed."
and not is_complete(...)`, lines 203-226). `hist` is the list of
assistant-authored contents of the history (the raw, unstripped replies);
`cc` is the current stripped completion; `turns` the continuation turns
used. `fuel` is `maxCont + 1 - turns`; at fuel 0 we have
`turns = maxCont + 1 ≥ maxCont`, so returning `exhausted` agrees with the
source on every state the entry point can reach. -/
def contLoop (tok : EndTok) (maxCont : Nat) (conts : Nat → Except Unit Str) :
    Nat → Nat → Nat → List Str → Str → CPResult
  | 0, _, requests, _, _ => ⟨.exhausted, requests⟩
  | fuel + 1, turns, requests, hist, cc =>
    if lowerStr cc = sentinelStr ∨ isComplete tok cc then
      ⟨.ok hist.flatten, requests⟩
    else if turns ≥ maxCont then ⟨.exhausted, requests⟩
    else
      match conts requests with
      | .error _ => ⟨.ok hist.flatten, requests + 1⟩
      | .ok reply =>
        let cc2 := pyStrip reply
        if lowerStr cc2 = sentinelStr then ⟨.ok hist.flatten, requests + 1⟩
        else contLoop tok maxCont conts fuel (turns + 1) (requests + 1)
          (hist ++ [reply]) cc2

/-- `completion_parser` (lines 170-231): seed history with the first reply,
strip it, collapse pathological runs, apply the degenerate-output guard,
then run the continuation loop. The assembled text of an `ok` outcome is
the concatenation of all assistant turns. -/
def completionParser (tok : EndTok) (maxCont : Nat) (first : Str)
    (conts : Nat → Except Unit Str) : CPResult :=
  let cc := pyStrip first
  let compact := compactOf cc
  let collapsed := collapseRuns cc
  if compact.length = 0 ∨ collapsed.length / max 1 compact.length ≥ 9 then
    ⟨.degenerate, 0⟩
  else
    contLoop tok maxCont conts (maxCont + 1) 0 0 [first] collapsed

/-!
## Bounded concurrency fan-out orchestrator
Embedding of `PromptOrchestratorAgent.invoke_many` (lines 147-181) and
`invoke_many_agent` (lines 261-293). A unit's execution is summarised by
its outcome: the value its `run_one` obtained, or the exception `run_one`
caught. Because both `run_one` variants catch every exception and return
it as a value, `asyncio.gather(..., return_exceptions=False)` never
aborts early: it waits for all tasks and yields their results in
submission order; the models therefore aggregate the completed outcome
list — the decision to raise or return is taken only after every unit has
finished.
-/

/-- The first exception in index order (`invoke_many` lines 173-177:
scan the sorted results, remember the first `Exception`). -/
def firstExcOf {e a : Type} (results : List (Nat × Except e a)) : Option e :=
  results.findSome? (fun p =>
    match p.2 with
    | .error ex => some ex
    | .ok _ => none)

/-- The gathered `(index, outcome)` pairs, sorted by submission index
(`results = await asyncio.gather(*tasks)` followed by
`results.sort(key=lambda x: x[0])`, lines 167-169). -/
def gatherSorted {e a : Type} (outcomes : List (Except e a)) :
    List (Nat × Except e a) :=
  (outcomes.enum).mergeSort (fun p q => decide (p.1 ≤ q.1))

/-- `invoke_many` (lines 147-181): gather all indexed outcomes, sort by
submission index, then raise the first exception in index order after all
units finished, or return all values in submission order. -/
def invokeMany {e a : Type} (outcomes : List (Except e a)) :
    Except e (List a) :=
  match firstExcOf (gatherSorted outcomes) with
  | some ex => .error ex
  | none => .ok ((gatherSorted outcomes).filterMap (fun p => p.2.toOption))

/-- A Failure Record captured by `invoke_many_agent` (line 284):
`{"name": name, "idx": idx, "error": err, "param": p}`. Note that the
`param` field holds the unit's original input itself. -/
structure FailureRec (π : Type) : Type where
  name : Str
  idx : Nat
  error : Str
  param : π
deriving DecidableEq, Repr

/-- `\w` of `_sanitize_name`, ASCII: letters, digits, underscore. -/
def isWordChar (c : Char) : Bool := c.isAlphanum || c = '_'

/-- Replace each maximal run of non-word characters with one underscore
(`re.sub(r"\W+", "_", name)`); the flag records being inside such a run. -/
def sanitizeGo : Bool → Str → Str
  | _, [] => []
  | inRun, c :: t =>
    if isWordChar c then c :: sanitizeGo false t
    else if inRun then sanitizeGo true t
    else '_' :: sanitizeGo true t

/-- `_sanitize_name` (`PromptOrchestratorAgent.py` lines 73-77). -/
def sanitizeName (s : Str) : Str :=
  match sanitizeGo false s with
  | [] => "a_agent".data
  | c :: t => if c.isAlpha || c = '_' then c :: t else 'a' :: '_' :: c :: t

/-- Zero-padded six-digit index (`f"{idx:06d}"`). -/
def pad6 (n : Nat) : Str :=
  let d := Nat.toDigits 10 n
  List.replicate (6 - d.length) '0' ++ d

/-- The generated unit name `f"{self.name}.child.{idx:06d}"`
(`invoke_many_agent` line 274). -/
def genChildName (orch : Str) (idx : Nat) : Str :=
  orch ++ ".child.".data ++ pad6 idx

/-- The truncated preview of a unit's input built by `invoke_one_agent`
(lines 236-240) for the child's session error state: first 800 characters
plus an ellipsis when longer than 800. -/
def truncPreview (s : Str) : Str :=
  if s.length > 800 then s.take 800 ++ ['…'] else s

/-- `run_one` of `invoke_many_agent` (lines 273-285): the unit behaviour
`beh` abstracts `invoke_one_agent` — on success it yields the child
context, keyed by the sanitized generated name (`__init__` sanitizes the
name passed to the child); on failure it yields the message of the
`RuntimeError` that `invoke_one_agent` wraps every child exception in.
`run_one` catches that error and records
`{"name": name, "idx": idx, "error": f"{type(e).__name__}: {e}",
"param": p}`. -/
def runOneAgent {π γ : Type} (orch : Str) (beh : Nat → π → Except Str γ)
    (idx : Nat) (p : π) : Except (FailureRec π) (Str × γ) :=
  match beh idx p with
  | .ok ctx => .ok (sanitizeName (genChildName orch idx), ctx)
  | .error e =>
    .error ⟨genChildName orch idx, idx, "RuntimeError: ".data ++ e, p⟩

/-- `invoke_many_agent` (lines 261-293): run every unit, collect the
successful `(name, context)` pairs into the merged mapping and every
caught failure into the failure list; no exception escapes. -/
def invokeManyAgent {π γ : Type} (orch : Str)
    (beh : Nat → π → Except Str γ) (params : List π) :
    List (Str × γ) × List (FailureRec π) :=
  let results := params.enum.map (fun q => runOneAgent orch beh q.1 q.2)
  (results.filterMap (fun r => r.toOption),
   results.filterMap (fun r =>
     match r with
     | .error f => some f
     | .ok _ => none))

/-!
## Admission limiter
Transition system for the semaphore discipline of `invoke_many` (lines
154-163) and `invoke_many_agent` (lines 267-280): with
`concurrency = L > 0`, `sem = asyncio.Semaphore(L)` and each unit runs
its core work inside `async with sem`; with `L = 0`, `sem = None` and no
admission bound is imposed.
-/

/-- Phase of one unit relative to the admission limiter. -/
inductive UnitPhase : Type
  | waiting : UnitPhase
  | running : UnitPhase
  | done : UnitPhase
deriving DecidableEq, Repr

/-- Scheduler state: each unit's phase plus the semaphore counter. -/
structure SemState : Type where
  phases : List UnitPhase
  avail : Nat
deriving DecidableEq, Repr

/-- Unit steps. `limit = none` models `sem = None` (concurrency 0,
unlimited); `limit = some L` models `asyncio.Semaphore(L)`: entering the
guarded work requires a positive counter and decrements it; finishing
increments it again on every exit path. -/
inductive SemStep (limit : Option Nat) : SemState → SemState → Prop
  | start (s : SemState) (i : Nat) :
      s.phases[i]? = some UnitPhase.waiting →
      (limit.isSome → 0 < s.avail) →
      SemStep limit s
        ⟨s.phases.set i UnitPhase.running,
          if limit.isSome then s.avail - 1 else s.avail⟩
  | finish (s : SemState) (i : Nat) :
      s.phases[i]? = some UnitPhase.running →
      SemStep limit s
        ⟨s.phases.set i UnitPhase.done,
          if limit.isSome then s.avail + 1 else s.avail⟩

/-- Initial state for K units: everyone waiting, counter = L. -/
def semInit (limit : Option Nat) (K : Nat) : SemState :=
  ⟨List.replicate K UnitPhase.waiting, limit.getD 0⟩

/-- States reachable by interleaving unit steps from the initial state. -/
inductive SemReach (limit : Option Nat) (K : Nat) : SemState → Prop
  | init : SemReach limit K (semInit limit K)
  | step {s t : SemState} : SemReach limit K s → SemStep limit s t →
      SemReach limit K t

/-- Number of units currently inside the semaphore-guarded work. -/
def countRunning (s : SemState) : Nat :=
  s.phases.count UnitPhase.running

/-!
## Table/Record Extractor
Embedding of `md_table_to_pydantic_list`
(`PromptOrchestratorSidekick.py` lines 549-773). The Record Schema is the
ordered field-type list of the pydantic model; a record is the ordered
list of coerced field values (`data_dict`); constructing the model
instance from it is the pydantic boundary and external to this core. All
stages below are translated from the source: the escape step, boundary
trim, column count detection, the break-marker round trip, per-row
validation with delimiter repair, keyword-row dropping, block detection,
itemized-row merging, and positional type coercion.
-/

/-- Field types of a Record Schema (`str | int | float | bool`). -/
inductive FieldType : Type
  | tStr : FieldType
  | tInt : FieldType
  | tFloat : FieldType
  | tBool : FieldType
deriving DecidableEq, Repr

/-- A coerced field value as stored in `data_dict`: `None` for a failed
int/float parse is `Option.none`. -/
inductive CellValue : Type
  | vStr : Str → CellValue
  | vInt : Option Nat → CellValue
  | vFloat : Option ℚ → CellValue
  | vBool : Bool → CellValue
deriving DecidableEq, Repr

/-- `remove_markdown` (lines 599-605): replace the emphasis markers
`***`, `**`, ` _`, `_ ` in this order by a space, then strip. -/
def removeMd (s : Str) : Str :=
  pyStrip (replace2 '_' ' ' " ".data (replace2 ' ' '_' " ".data
    (replace2 '*' '*' " ".data (replace3 '*' '*' '*' " ".data s))))

/-- `line.startswith('|') and line.endswith('|')`. -/
def startsEndsPipe (s : Str) : Bool :=
  match s with
  | [] => false
  | c :: t => c = '|' && (c :: t).getLast? = some '|'

/-- `re.fullmatch(r'\|[\s:\-|]+\|', s)`: a divider row. -/
def isDividerLine (s : Str) : Bool :=
  decide (3 ≤ s.length) && (s.headD ' ' = '|') && (s.getLastD ' ' = '|') &&
    ((s.drop 1).dropLast.all (fun c => isWS c || c = ':' || c = '-' || c = '|'))

/-- `smart_pipe_replace` (lines 616-629): for every index in
`range(2, len(chars) - 2)` holding a pipe whose two left neighbours are
not both spaces and whose two right neighbours are not both spaces,
reclassify the pipe as the literal `¦`; the scan reads the mutated
array. -/
def smartPipe (line : Str) : Str :=
  let n := line.length
  (List.range n).foldl (fun chars i =>
    if 2 ≤ i ∧ i + 2 < n then
      if chars.getD i ' ' ≠ '|' then chars
      else if (chars.getD (i - 2) ' ' ≠ ' ' ∨ chars.getD (i - 1) ' ' ≠ ' ')
          ∧ (chars.getD (i + 2) ' ' ≠ ' ' ∨ chars.getD (i + 1) ' ' ≠ ' ')
        then chars.set i '¦'
      else chars
    else chars) line

/-- Case-insensitive removal of every occurrence of `kw`
(`re.sub(re.escape(kw), "", inner, flags=re.IGNORECASE)`); the counter
consumes the characters of a recognised occurrence. -/
def removeCIGo (kw : Str) : Nat → Str → Str
  | _, [] => []
  | skip + 1, _ :: t => removeCIGo kw skip t
  | 0, c :: t =>
    if (lowerStr kw).isPrefixOf (lowerStr (c :: t)) then
      removeCIGo kw (kw.length - 1) t
    else c :: removeCIGo kw 0 t

/-- Case-insensitive removal of every occurrence of `kw`. -/
def removeCI (kw : Str) (s : Str) : Str := removeCIGo kw 0 s

/-- The terminator phrases of `KEYWORD_ROWS` (lines 612-615), in the
iteration order assumed for the Python set. -/
def keywordRows : List Str := ["end of report.".data, "end of report".data]

/-- `_is_keyword_row` (lines 631-642): a pipe-bounded, non-divider row
whose inner content is only formatting noise once the terminator phrases
(checked against the once-lowered original inner text) are removed. -/
def isKeywordRow (line : Str) : Bool :=
  let s := pyStrip line
  if ¬startsEndsPipe s then false
  else if isDividerLine s then false
  else
    let inner := (s.drop 1).dropLast
    let lowered := lowerStr inner
    let inner2 := keywordRows.foldl
      (fun acc kw => if containsSub kw lowered then removeCI kw acc else acc)
      inner
    (pyStrip (dropChar '|' (dropChar ':' (dropChar '-'
      (dropChar ' ' inner2))))).isEmpty

/-- `text[first_pipe:last_pipe + 1]` with the `ValueError` on missing or
degenerate boundaries (lines 644-650). -/
def trimPipes (t2 : Str) : Except Unit Str :=
  match t2.findIdx? (fun c => c = '|') with
  | none => .error ()
  | some i =>
    match t2.reverse.findIdx? (fun c => c = '|') with
    | none => .error ()
    | some rj =>
      let j := t2.length - 1 - rj
      if i ≥ j then .error ()
      else .ok ((t2.drop i).take (j + 1 - i))

/-- Step 3 (line 671): `trimmed.replace('\n', '<br>')`. -/
def expandBr (s : Str) : Str :=
  s.flatMap (fun c => if c = '\n' then "<br>".data else [c])

/-- Length of the match of `\|\s*<br>\s*\|` at the head of `s`, when
present. -/
def matchBr (s : Str) : Option Nat :=
  match s with
  | [] => none
  | c :: t =>
    if c = '|' then
      let w1 := t.takeWhile isWS
      let r1 := t.dropWhile isWS
      if "<br>".data.isPrefixOf r1 then
        let r2 := r1.drop 4
        let w2 := r2.takeWhile isWS
        if (r2.dropWhile isWS).headD ' ' = '|' then
          some (1 + w1.length + 4 + w2.length + 1)
        else none
      else none
    else none

/-- Left-to-right non-overlapping substitution of `\|\s*<br>\s*\|` by
`|\n|` (step 4, line 674); the counter consumes a matched region. -/
def brGo : Nat → Str → Str
  | _, [] => []
  | skip + 1, _ :: t => brGo skip t
  | 0, c :: t =>
    match matchBr (c :: t) with
    | some consumed => '|' :: '\n' :: '|' :: brGo (consumed - 1) t
    | none => c :: brGo 0 t

/-- `re.sub(r'\|\s*<br>\s*\|', '|\n|', br_text)`. -/
def brRestore (s : Str) : Str := brGo 0 s

/-- Step 5 (lines 677-693): keyword rows are dropped; pipe-bounded rows
with the wrong cell count go through `smart_pipe_replace`, and become
Defective Lines when still mismatched; all kept lines are stripped. -/
def step5Go (numCols : Nat) : List Str → List Str × List Str
  | [] => ([], [])
  | line :: rest =>
    if isKeywordRow line then step5Go numCols rest
    else if startsEndsPipe line then
      let cells := ((splitChar '|' line).drop 1).dropLast
      if cells.length = numCols then
        let p := step5Go numCols rest
        (pyStrip line :: p.1, p.2)
      else
        let fixed := smartPipe line
        let cells2 := ((splitChar '|' fixed).drop 1).dropLast
        if cells2.length = numCols then
          let p := step5Go numCols rest
          (pyStrip fixed :: p.1, p.2)
        else
          let p := step5Go numCols rest
          (p.1, line :: p.2)
    else
      let p := step5Go numCols rest
      (pyStrip line :: p.1, p.2)

/-- Column count detection (lines 654-667): the first divider row, else
the first pipe-bounded row; `line.count('|') - 1`. Zero means the
`ValueError` at line 667. -/
def detectNumCols (cleanLines : List Str) : Nat :=
  match cleanLines.find? (fun l => isDividerLine (pyStrip l)) with
  | some l => l.count '|' - 1
  | none =>
    match cleanLines.find? (fun l => startsEndsPipe (pyStrip l)) with
    | some l => l.count '|' - 1
    | none => 0

/-- `sanitize_table` (lines 611-694): escape doubled and backslashed
delimiters, trim to the pipe-bounded region, drop blank lines, determine
the column count, round-trip embedded line breaks through break markers,
then validate row by row. Returns the sanitized text and the Defective
Lines; `.error` is the `ValueError` raises. -/
def sanitizeTable (txt : Str) : Except Unit (Str × List Str) := do
  let t1 := replace2 '|' '|' "‖".data txt
  let t2 := replace2 '\\' '|' "¦".data t1
  let trimmed ← trimPipes t2
  let lines := splitChar '\n' (pyStrip trimmed)
  let cleanLines := lines.filter (fun l => !(pyStrip l).isEmpty)
  let nc := detectNumCols cleanLines
  if nc = 0 then .error ()
  else
    let trimmed2 := List.intercalate ['\n'] cleanLines
    let brText := brRestore (expandBr trimmed2)
    let lines2 := splitChar '\n' (pyStrip brText)
    let p := step5Go nc lines2
    .ok (List.intercalate ['\n'] p.1, p.2)

/-- Block detection (lines 697-716): group pipe-bounded rows into Table
Blocks; a divider row records that table structure was found and drops a
lone preceding header row; non-table text closes the current block. -/
def detectBlocks (mdText : Str) : List (List Str) × Bool :=
  let st := (splitChar '\n' mdText).foldl
    (fun (st : List (List Str) × List Str × Bool) line =>
      let tables := st.1
      let current := st.2.1
      let found := st.2.2
      let s := pyStrip line
      if startsEndsPipe s then
        if (pyStrip (dropChar ':' (dropChar '-' (dropChar '|' s)))).isEmpty
          then
          if current.length = 1 then (tables, [], true)
          else (tables, current, true)
        else (tables, current ++ [s], found)
      else if s.isEmpty then (tables, current, found)
      else if !current.isEmpty then (tables ++ [current], [], found)
      else (tables, current, found))
    ([], [], false)
  (if st.2.1.isEmpty then st.1 else st.1 ++ [st.2.1], st.2.2)

/-- `row.strip("|")`. -/
def stripPipes (s : Str) : Str :=
  ((s.dropWhile (fun c => c = '|')).reverse.dropWhile
    (fun c => c = '|')).reverse

/-- First index `i` with `i != 0`, at least `cid + 1` split columns, and
an empty (rstripped) identifier column (the scan of lines 733-738). -/
def findEmptyIdx (cid : Nat) : Nat → List Str → Option Nat
  | _, [] => none
  | i, r :: t =>
    let cols := (splitChar '|' r).map rstripWS
    if i ≠ 0 ∧ cid + 1 ≤ cols.length ∧ cols.getD cid [] = [] then some i
    else findEmptyIdx cid (i + 1) t

/-- Merge the itemized row `child` into `parent` (lines 739-743): every
rstripped parent column other than the identifier gets the corresponding
rstripped child column appended via the break marker; a child with fewer
columns than the parent raises (`cols[j]` IndexError). -/
def mergeRowInto (cid : Nat) (parent child : Str) : Except Unit Str := do
  let pcols := (splitChar '|' parent).map rstripWS
  let ccols := (splitChar '|' child).map rstripWS
  let merged ← pcols.enum.mapM (fun q =>
    if q.1 = cid then Except.ok q.2
    else
      match ccols[q.1]? with
      | some cc => Except.ok (q.2 ++ " <br> ".data ++ cc)
      | none => Except.error ())
  return List.intercalate ['|'] merged

/-- One pass of the merge loop: find the first mergeable row, merge it
into its predecessor and remove it, reporting the index `i_h` at which
the merge happened. `.ok none` means a full pass without a merge. -/
def mergeOnce (cid : Nat) (rows : List Str) :
    Except Unit (Option (List Str × Nat)) :=
  match findEmptyIdx cid 0 rows with
  | none => .ok none
  | some i =>
    match rows[i - 1]?, rows[i]? with
    | some parent, some child => do
      let merged ← mergeRowInto cid parent child
      .ok (some (((rows.set (i - 1) merged).eraseIdx i), i))
    | _, _ => .ok none

/-- The `while True` merge loop (lines 731-747) with its exact exit test:
after a merge at index `i_h` the loop stops as soon as
`i_h == len(table_rows) - 1` (measured after the removal), otherwise it
rescans; a pass without a merge stops the loop. Each merge removes one
row, so `rows.length` passes of fuel suffice; on an empty block the
Python loop never terminates, which no caller can reach
(`tables` only holds non-empty blocks). -/
def mergeLoopGo (cid : Nat) : Nat → List Str → Except Unit (List Str)
  | 0, rows => .ok rows
  | fuel + 1, rows =>
    match mergeOnce cid rows with
    | .error e => .error e
    | .ok none => .ok rows
    | .ok (some (rows2, ih)) =>
      if ih = rows2.length - 1 then .ok rows2
      else mergeLoopGo cid fuel rows2

/-- The itemized-row merge loop on one Table Block. -/
def mergeLoop (cid : Nat) (rows : List Str) : Except Unit (List Str) :=
  mergeLoopGo cid rows.length rows

/-- The small truthy-token set of the boolean coercion (line 765). -/
def truthyTokens : List Str := ["true".data, "yes".data, "1".data]

/-- `re.match(r"^\d+(\.\d+)?$", s)` with the parsed value. -/
def floatLit (s : Str) : Option ℚ :=
  let intPart := s.takeWhile (fun c => c.isDigit)
  let rest := s.dropWhile (fun c => c.isDigit)
  if intPart.isEmpty then none
  else
    match rest with
    | [] => some ((digitsToNat intPart : ℚ))
    | '.' :: frac =>
      if !frac.isEmpty && frac.all (fun c => c.isDigit) then
        some ((digitsToNat intPart : ℚ) +
          (digitsToNat frac : ℚ) / ((10 : ℚ) ^ frac.length))
      else none
    | _ => none

/-- The positional type coercion of one cell (lines 757-767): integer
fields parse digit-only cells or degrade to empty; float fields parse
unsigned decimal literals or degrade to empty; boolean fields compare the
lowered cell against the truthy-token set; all other fields keep the cell
as a string. -/
def convertCol (t : FieldType) (c : Str) : CellValue :=
  match t with
  | .tInt => .vInt (if isDigitStr c then some (digitsToNat c) else none)
  | .tFloat => .vFloat (floatLit c)
  | .tBool => .vBool (truthyTokens.contains (lowerStr c))
  | .tStr => .vStr c

/-- One row to one record (lines 749-771): split on the delimiter, strip
markdown from every column, then coerce columns positionally onto the
schema fields, stopping at the shorter of the two (`if len(cols) == i:
break`). -/
def rowToRecord (ts : List FieldType) (row : Str) : List CellValue :=
  let cols := (splitChar '|' row).map (fun c => pyStrip (removeMd c))
  (ts.zip cols).map (fun q => convertCol q.1 q.2)

/-- Process one Table Block (lines 723-771): strip the outer pipes of
every row, run the itemized-row merge loop (skipped when `column_id` is
`None`), then convert every remaining row. -/
def processTable (ts : List FieldType) (cid : Option Nat)
    (table : List Str) : Except Unit (List (List CellValue)) := do
  let tableRows := table.map (fun r => pyStrip (stripPipes r))
  let rows2 ← match cid with
    | none => Except.ok tableRows
    | some c => mergeLoop c tableRows
  return rows2.map (rowToRecord ts)

/-- Result of `md_table_to_pydantic_list`: a raised `ValueError` or
`IndexError` (`err`), the `return None` null signal (`nullRes`), the bare
`return []` when a divider was seen but no block formed (`emptyBare`), or
the `(instances, defective_lines)` pair. -/
inductive MdResult : Type
  | err : MdResult
  | nullRes : MdResult
  | emptyBare : MdResult
  | pair : List (List CellValue) → List Str → MdResult
deriving DecidableEq, Repr

/-- `md_table_to_pydantic_list` (lines 549-773): sanitize, detect blocks,
then merge and coerce block by block, concatenating the records of all
blocks. -/
def mdTable (txt : Str) (ts : List FieldType) (cid : Option Nat) :
    MdResult :=
  match sanitizeTable txt with
  | .error _ => .err
  | .ok (clean, defect) =>
    let bl := detectBlocks clean
    if bl.1.isEmpty then
      if bl.2 then .emptyBare else .nullRes
    else
      match bl.1.mapM (processTable ts cid) with
      | .error _ => .err
      | .ok recss => .pair recss.flatten defect

/-- Equality of modelled Python results (value or raised error) is
decidable. -/
instance {e a : Type} [DecidableEq e] [DecidableEq a] :
    DecidableEq (Except e a) := fun x y =>
  match x, y with
  | .error u, .error v =>
    if h : u = v then isTrue (by rw [h])
    else isFalse (by intro hc; cases hc; exact h rfl)
  | .ok u, .ok v =>
    if h : u = v then isTrue (by rw [h])
    else isFalse (by intro hc; cases hc; exact h rfl)
  | .error _, .ok _ => isFalse (by intro hc; cases hc)
  | .ok _, .error _ => isFalse (by intro hc; cases hc)

/-!
## Well-formed tables and their serialization (for C1)
A well-formed markdown table of N columns is serialized in the standard
style: every row is `| c1 | c2 | ... | cN |`, the divider row uses `---`
cells, and rows are joined by newlines. A well-formed cell is
whitespace-trimmed and contains no delimiter, escape, break-marker,
emphasis-marker or line-break characters and no terminator phrase; every
row has some cell content beyond divider characters, and data rows have a
non-empty identifier (first) cell.
-/

/-- One serialized cell with its single-space padding. -/
def padCell (c : Str) : Str := ' ' :: (c ++ [' '])

/-- One serialized row: `| c1 | c2 | ... | cN |`. -/
def mkRow (cs : List Str) : Str :=
  '|' :: cs.flatMap (fun c => padCell c ++ ['|'])

/-- The divider cell. -/
def dashCell : Str := "---".data

/-- The serialized table: header row, divider row, data rows. -/
def serializeTable (n : Nat) (header : List Str) (rows : List (List Str)) :
    Str :=
  List.intercalate ['\n']
    (mkRow header :: mkRow (List.replicate n dashCell) :: rows.map mkRow)

/-- Characters allowed inside a well-formed cell. -/
def okChar (ch : Char) : Bool :=
  !(ch = '|' || ch = '\\' || ch = '<' || ch = '\n' || ch = '*' || ch = '_')

/-- A well-formed cell: allowed characters only, whitespace-trimmed, and
no terminator phrase inside the padded cell. -/
def goodCell (c : Str) : Prop :=
  c.all okChar = true ∧ pyStrip c = c ∧
    containsSub "end of report".data (lowerStr (padCell c)) = false ∧
    c ≠ []

/-- A character that keeps a row from being mistaken for a divider or
keyword row. -/
def contentChar (ch : Char) : Bool := !(isWS ch || ch = '-' || ch = ':' || ch = '|')

/-- Some cell of the row has a content character. -/
def rowHasContent (cs : List Str) : Prop :=
  ∃ c ∈ cs, ∃ ch ∈ c, contentChar ch = true

/-- Well-formed header row for an N-field schema. -/
def wfHeader (n : Nat) (hs : List Str) : Prop :=
  hs.length = n ∧ (∀ c ∈ hs, goodCell c) ∧ rowHasContent hs

/-- Well-formed data row: N well-formed cells, some content, and a
non-empty identifier cell. -/
def wfDataRow (n : Nat) (cs : List Str) : Prop :=
  cs.length = n ∧ (∀ c ∈ cs, goodCell c) ∧ rowHasContent cs ∧
    cs.headD [] ≠ []

/-- The lines of a serialized well-formed table: header, divider, data
rows. -/
def tableLines (n : Nat) (header : List Str) (rows : List (List Str)) :
    List Str :=
  mkRow header :: mkRow (List.replicate n dashCell) :: rows.map mkRow

/-- The interior split pieces of a stripped serialized row: every cell
keeps its padding except that the last cell loses its trailing space. -/
def innerPieces : List Str → List Str
  | [] => []
  | [c] => [' ' :: c]
  | c :: rest => padCell c :: innerPieces rest

/-- The split pieces of a stripped serialized row: the first cell loses
its leading space, the last its trailing space. -/
def rowPieces : List Str → List Str
  | [] => [[]]
  | [c] => [c]
  | c :: rest => (c ++ [' ']) :: innerPieces rest

/-- One line of the Table-Block detection fold (lines 698-713). -/
def detectStep (st : List (List Str) × List Str × Bool) (line : Str) :
    List (List Str) × List Str × Bool :=
  let tables := st.1
  let current := st.2.1
  let found := st.2.2
  let s := pyStrip line
  if startsEndsPipe s then
    if (pyStrip (dropChar ':' (dropChar '-' (dropChar '|' s)))).isEmpty
      then
      if current.length = 1 then (tables, [], true)
      else (tables, current, true)
    else (tables, current ++ [s], found)
  else if s.isEmpty then (tables, current, found)
  else if !current.isEmpty then (tables ++ [current], [], found)
  else (tables, current, found)

instance (c : Str) : Decidable (goodCell c) := by
  unfold goodCell
  infer_instance

instance (cs : List Str) : Decidable (rowHasContent cs) := by
  unfold rowHasContent
  infer_instance

instance (n : Nat) (hs : List Str) : Decidable (wfHeader n hs) := by
  unfold wfHeader
  infer_instance

instance (n : Nat) (cs : List Str) : Decidable (wfDataRow n cs) := by
  unfold wfDataRow
  infer_instance

/-!
## Lemmas about the continuation loop
-/

/-- The degenerate-output guard of `completionParser`, as a proposition. -/
theorem degenCheck_iff (s : Str) :
    degenCheck s = true ↔
      (compactOf s).length = 0 ∨
        (collapseRuns s).length / max 1 (compactOf s).length ≥ 9 := by
  simp [degenCheck]

/-- The continuation loop never produces the degenerate-output error: that
error is raised only before the loop starts. -/
theorem contLoop_ne_degenerate (tok : EndTok) (maxCont : Nat)
    (conts : Nat → Except Unit Str) :
    ∀ (fuel turns requests : Nat) (hist : List Str) (cc : Str),
      (contLoop tok maxCont conts fuel turns requests hist cc).outcome ≠
        CPOutcome.degenerate := by
  intro fuel
  induction fuel with
  | zero => intro turns requests hist cc; simp [contLoop]
  | succ n ih =>
    intro turns requests hist cc
    simp only [contLoop]
    split
    · simp
    · split
      · simp
      · split
        · simp
        · split
          · simp
          · exact ih (turns + 1) (requests + 1) _ _

/-- Main script lemma: starting the loop on an incomplete, non-sentinel
completion, with the Gateway scripted to return the replies in `rest`
(all but the last failing the completeness test, the last passing it, none
the sentinel), the loop issues exactly `rest.length` further requests and
assembles all assistant turns in order. -/
theorem contLoop_script (tok : EndTok) (maxCont : Nat)
    (conts : Nat → Except Unit Str) :
    ∀ (rest : List Str) (fuel turns requests : Nat) (hist : List Str)
      (cc : Str),
      rest.length < fuel →
      turns + rest.length ≤ maxCont →
      (∀ k, k < rest.length → conts (requests + k) = .ok (rest.getD k [])) →
      lowerStr cc ≠ sentinelStr →
      (∀ r ∈ rest, lowerStr (pyStrip r) ≠ sentinelStr) →
      (rest = [] → isComplete tok cc = true) →
      (rest ≠ [] → isComplete tok cc = false) →
      (∀ k, k + 1 < rest.length →
        isComplete tok (pyStrip (rest.getD k [])) = false) →
      (rest ≠ [] →
        isComplete tok (pyStrip (rest.getD (rest.length - 1) [])) = true) →
      contLoop tok maxCont conts fuel turns requests hist cc =
        ⟨CPOutcome.ok (hist.flatten ++ rest.flatten),
          requests + rest.length⟩ := by
  intro rest
  induction rest with
  | nil =>
    intro fuel turns requests hist cc hfuel hturn hscript hsent hsents hdone
      hnotdone hmid hlast
    match fuel, hfuel with
    | f + 1, hf =>
      simp only [contLoop]
      rw [if_pos (Or.inr (hdone rfl))]
      simp
  | cons r rs ih =>
    intro fuel turns requests hist cc hfuel hturn hscript hsent hsents hdone
      hnotdone hmid hlast
    match fuel, hfuel with
    | f + 1, hf =>
      simp only [contLoop]
      rw [if_neg, if_neg]
      · have h0 : conts (requests + 0) = .ok r := hscript 0 (by simp)
        simp only [Nat.add_zero] at h0
        rw [h0]
        simp only
        rw [if_neg]
        · have hrec := ih f (turns + 1) (requests + 1) (hist ++ [r])
            (pyStrip r)
            (by simp only [List.length_cons] at hf; omega)
            (by simp only [List.length_cons] at hturn; omega)
            (by
              intro k hk
              have := hscript (k + 1) (by simp; omega)
              simpa [Nat.add_assoc, Nat.add_comm 1 k] using this)
            (hsents r (by simp))
            (fun x hx => hsents x (by simp [hx]))
            (by
              intro hrs
              have := hlast (by simp)
              simpa [hrs] using this)
            (by
              intro hrs
              have h1 : 0 + 1 < (r :: rs).length := by
                simp
                exact List.length_pos.mpr hrs
              simpa using hmid 0 h1)
            (by
              intro k hk
              have := hmid (k + 1) (by simp at hk ⊢; omega)
              simpa using this)
            (by
              intro hrs
              have := hlast (by simp)
              have hpos : 0 < rs.length := List.length_pos.mpr hrs
              have hlen : (r :: rs).length - 1 = (rs.length - 1) + 1 := by
                simp only [List.length_cons]
                omega
              rw [hlen] at this
              simpa [List.length_pos.mpr hrs] using this)
          rw [hrec]
          simp [Nat.add_assoc, Nat.add_comm 1 rs.length]
        · exact hsents r (by simp)
      · simp only [List.length_cons] at hturn; omega
      · rw [not_or]
        exact ⟨hsent, by simp [hnotdone (by simp)]⟩

/-- C5 (amended form): if the stripped first reply fails the
degenerate-output guard, the controller fails immediately with the
degenerate error and issues no continuation request. -/
theorem completionParser_degenerate (tok : EndTok) (maxCont : Nat)
    (first : Str) (conts : Nat → Except Unit Str)
    (h : degenCheck (pyStrip first) = true) :
    completionParser tok maxCont first conts = ⟨CPOutcome.degenerate, 0⟩ := by
  unfold completionParser
  rw [if_pos ((degenCheck_iff (pyStrip first)).mp h)]

/-- C4 (counterexample to the claim as stated): with the default
continuation limit 4, the scenario N = 6 — first reply "x" and four
scripted continuation replies "x", all failing the completeness test, with
the sixth reply "done." passing it — does not yield 5 continuation
requests and the concatenation of all six replies: the controller raises
the continuation-exhausted error after issuing only 4 requests. -/
theorem c4_counterexample :
    isComplete none (pyStrip "x".data) = false ∧
    isComplete none (pyStrip "done.".data) = true ∧
    completionParser none 4 "x".data
      (fun k => if k < 4 then Except.ok "x".data else Except.ok "done.".data)
      = ⟨CPOutcome.exhausted, 4⟩ := by
  decide

/-- C4 (amended): for every N ≥ 1 with N - 1 at most the continuation
limit, given a first reply that passes the degenerate-output guard and
N - 1 scripted continuation replies, where replies 1..N-1 fail the
completeness test (reply 1 as collapsed and stripped, the others stripped,
none the sentinel) and reply N passes it, the controller issues exactly
N - 1 continuation requests and the text handed to the output-repair step
is the concatenation of all N raw replies in submission order. Here
`rest` lists the N - 1 continuation replies. -/
theorem c4_continuation_requests (tok : EndTok) (maxCont : Nat) (first : Str)
    (rest : List Str) (conts : Nat → Except Unit Str)
    (hlen : rest.length ≤ maxCont)
    (hdeg : degenCheck (pyStrip first) = false)
    (hscript : ∀ k, k < rest.length → conts k = Except.ok (rest.getD k []))
    (hsent0 : lowerStr (collapseRuns (pyStrip first)) ≠ sentinelStr)
    (hsent : ∀ r ∈ rest, lowerStr (pyStrip r) ≠ sentinelStr)
    (hfirstC : rest = [] → isComplete tok (collapseRuns (pyStrip first)) = true)
    (hfirstI : rest ≠ [] →
      isComplete tok (collapseRuns (pyStrip first)) = false)
    (hmid : ∀ k, k + 1 < rest.length →
      isComplete tok (pyStrip (rest.getD k [])) = false)
    (hlast : rest ≠ [] →
      isComplete tok (pyStrip (rest.getD (rest.length - 1) [])) = true) :
    completionParser tok maxCont first conts =
      ⟨CPOutcome.ok (first ++ rest.flatten), rest.length⟩ := by
  unfold completionParser
  rw [if_neg]
  · have h := contLoop_script tok maxCont conts rest (maxCont + 1) 0 0 [first]
      (collapseRuns (pyStrip first)) (by omega) (by omega)
      (by intro k hk; simpa using hscript k hk)
      hsent0 hsent hfirstC hfirstI hmid hlast
    simpa using h
  · intro hcond
    exact absurd ((degenCheck_iff _).mpr hcond) (by simp [hdeg])

/-- C4 witness: N = 3, first reply "x" (incomplete), continuations "y"
(incomplete) and "z." (complete): 2 continuation requests and the
assembled text "xyz.". -/
theorem c4_continuation_requests_witness :
    completionParser none 4 "x".data
      (fun k => if k = 0 then Except.ok "y".data else Except.ok "z.".data)
      = ⟨CPOutcome.ok "xyz.".data, 2⟩ := by
  have h := c4_continuation_requests none 4 "x".data ["y".data, "z.".data]
    (fun k => if k = 0 then Except.ok "y".data else Except.ok "z.".data)
    (by decide) (by decide)
    (by
      intro k hk
      simp only [List.length_cons, List.length_nil] at hk
      interval_cases k <;> rfl)
    (by decide)
    (by decide)
    (by decide) (by decide)
    (by
      intro k hk
      simp only [List.length_cons, List.length_nil] at hk
      have hk2 : k = 0 := by omega
      subst hk2
      decide)
    (by decide)
  rw [h]
  decide

/-- C5 (counterexample to the claim as stated): the first reply
"a" followed by eight spaces satisfies the claimed condition — no run
exceeds 100 so collapsing changes nothing, its length 9 divided by its
compacted length 1 is at least 9 — yet the controller does not fail with
a degenerate-output error and does issue a continuation request: the
check is performed on the whitespace-stripped reply "a". -/
theorem c5_counterexample :
    (collapseRuns "a        ".data).length /
        max 1 (compactOf "a        ".data).length ≥ 9 ∧
    completionParser none 4 "a        ".data (fun _ => Except.ok "ok.".data)
      = ⟨CPOutcome.ok "a        ok.".data, 1⟩ := by
  decide

/-- C5 (amended): for every first reply whose stripped form has a
compacted form (spaces and dashes removed) of length zero, or whose
collapsed length (runs of more than 100 identical spaces or dashes capped
at 100) divided by its compacted length is at least 9, the controller
fails immediately with the degenerate-output error and issues no
continuation request to the Gateway. -/
theorem c5_degenerate_immediate (tok : EndTok) (maxCont : Nat) (first : Str)
    (conts : Nat → Except Unit Str)
    (h : (compactOf (pyStrip first)).length = 0 ∨
      (collapseRuns (pyStrip first)).length /
          max 1 (compactOf (pyStrip first)).length ≥ 9) :
    completionParser tok maxCont first conts = ⟨CPOutcome.degenerate, 0⟩ :=
  completionParser_degenerate tok maxCont first conts
    ((degenCheck_iff _).mpr h)

/-- C5 witness: an all-dash first reply fails immediately with zero
continuation requests. -/
theorem c5_degenerate_immediate_witness :
    completionParser none 4 "---".data (fun _ => Except.ok "x".data)
      = ⟨CPOutcome.degenerate, 0⟩ :=
  c5_degenerate_immediate none 4 "---".data (fun _ => Except.ok "x".data)
    (by decide)

/-- C10: the degenerate-output check applies exactly to the (stripped)
first reply of a logical call: a run of the controller ends in the
degenerate-output error if and only if the stripped first reply fails the
guard. Replies obtained from continuation requests are appended to the
history and checked for completeness inside the loop, which can never
produce the degenerate error. -/
theorem c10_degenerate_only_first (tok : EndTok) (maxCont : Nat)
    (first : Str) (conts : Nat → Except Unit Str) :
    (completionParser tok maxCont first conts).outcome = CPOutcome.degenerate
      ↔ degenCheck (pyStrip first) = true := by
  constructor
  · intro h
    by_contra hneg
    unfold completionParser at h
    rw [if_neg] at h
    · exact contLoop_ne_degenerate tok maxCont conts _ _ _ _ _ h
    · intro hcond
      exact hneg ((degenCheck_iff _).mpr hcond)
  · intro h
    rw [completionParser_degenerate tok maxCont first conts h]

/-!
## Lemmas for the fan-out orchestrator
-/

/-- Members of `enumFrom n` carry indices at least `n`. -/
theorem le_fst_of_mem_enumFrom {a : Type} :
    ∀ {l : List a} {n : Nat} {q : Nat × a}, q ∈ l.enumFrom n → n ≤ q.1 := by
  intro l
  induction l with
  | nil => intro n q h; simp at h
  | cons x t ih =>
    intro n q h
    simp only [List.enumFrom_cons, List.mem_cons] at h
    rcases h with h | h
    · subst h; exact Nat.le_refl n
    · exact Nat.le_of_succ_le (ih h)

/-- The indexed gather output is already sorted by submission index, so
the sort of `invoke_many` leaves it unchanged. -/
theorem gatherSorted_eq_enum {e a : Type} (outcomes : List (Except e a)) :
    gatherSorted outcomes = outcomes.enum := by
  apply List.mergeSort_of_sorted
  show List.Pairwise _ (outcomes.enumFrom 0)
  generalize 0 = n
  induction outcomes generalizing n with
  | nil => simp
  | cons x t ih =>
    simp only [List.enumFrom_cons, List.pairwise_cons]
    refine ⟨fun q hq => ?_, ih (n + 1)⟩
    simp only [decide_eq_true_eq]
    exact Nat.le_of_succ_le (le_fst_of_mem_enumFrom hq)

/-- With every unit successful, the index-ordered scan finds no
exception. -/
theorem firstExcOf_enum_none {e a : Type} :
    ∀ (l : List (Except e a)) (n : Nat), (∀ r ∈ l, r.isOk = true) →
      firstExcOf (l.enumFrom n) = none := by
  intro l
  induction l with
  | nil => intro n _; rfl
  | cons r t ih =>
    intro n h
    cases r with
    | error ex =>
      have hx := h (Except.error ex) (by simp)
      simp [Except.isOk, Except.toBool] at hx
    | ok v =>
      simp only [List.enumFrom_cons, firstExcOf, List.findSome?_cons]
      exact ih (n + 1) (fun q hq => h q (by simp [hq]))

/-- Dropping the indices of the gather output before extracting values. -/
theorem filterMap_enum_toOption {e a : Type} :
    ∀ (l : List (Except e a)) (n : Nat),
      (l.enumFrom n).filterMap (fun p => p.2.toOption) =
        l.filterMap Except.toOption := by
  intro l
  induction l with
  | nil => intro n; rfl
  | cons r t ih =>
    intro n
    cases r with
    | error ex =>
      have h3 : ((Except.error ex :: t).enumFrom n).filterMap
          (fun p : Nat × Except e a => p.2.toOption) =
          (t.enumFrom (n + 1)).filterMap (fun p => p.2.toOption) := rfl
      have h2 : (Except.error ex :: t).filterMap Except.toOption =
          t.filterMap Except.toOption := rfl
      rw [h3, h2]
      exact ih (n + 1)
    | ok v =>
      have h3 : ((Except.ok v :: t).enumFrom n).filterMap
          (fun p : Nat × Except e a => p.2.toOption) =
          v :: (t.enumFrom (n + 1)).filterMap (fun p => p.2.toOption) := rfl
      have h2 : (Except.ok v :: t).filterMap Except.toOption =
          v :: t.filterMap Except.toOption := rfl
      rw [h3, h2, ih (n + 1)]

/-- With every unit successful, extraction preserves every position. -/
theorem filterMap_toOption_pos {e a : Type} :
    ∀ (l : List (Except e a)), (∀ r ∈ l, r.isOk = true) →
      ∀ (i : Nat) (v : a), l[i]? = some (Except.ok v) →
        (l.filterMap Except.toOption)[i]? = some v := by
  intro l
  induction l with
  | nil => intro _ i v h; simp at h
  | cons r t ih =>
    intro h i v hv
    cases r with
    | error ex =>
      have hx := h (Except.error ex) (by simp)
      simp [Except.isOk, Except.toBool] at hx
    | ok w =>
      have hcons : (Except.ok w :: t).filterMap Except.toOption =
          w :: t.filterMap Except.toOption := rfl
      rw [hcons]
      cases i with
      | zero =>
        simp only [List.getElem?_cons_zero, Option.some_inj] at hv
        cases hv
        simp
      | succ j =>
        simp only [List.getElem?_cons_succ] at hv ⊢
        exact ih (fun q hq => h q (by simp [hq])) j v hv

/-- The index-ordered scan returns the error of least submission index. -/
theorem firstExcOf_enum_least {e a : Type} :
    ∀ (l : List (Except e a)) (n i : Nat) (ex : e),
      l[i]? = some (Except.error ex) →
      (∀ j, j < i → ∀ e2, l[j]? ≠ some (Except.error e2)) →
      firstExcOf (l.enumFrom n) = some ex := by
  intro l
  induction l with
  | nil => intro n i ex h _; simp at h
  | cons r t ih =>
    intro n i ex hi hmin
    cases i with
    | zero =>
      simp only [List.getElem?_cons_zero, Option.some_inj] at hi
      subst hi
      rfl
    | succ j =>
      cases r with
      | error e0 =>
        have h0 : (Except.error e0 :: t)[0]? = some (Except.error e0) := by
          simp
        exact absurd h0 (hmin 0 (Nat.succ_pos j) e0)
      | ok v =>
        simp only [List.getElem?_cons_succ] at hi
        simp only [List.enumFrom_cons, firstExcOf, List.findSome?_cons]
        exact ih (n + 1) j ex hi
          (fun k hk e2 => by simpa using hmin (k + 1) (by omega) e2)

/-- C2: under the ordered fail-fast policy the decision is a pure
function of the complete outcome list — both `run_one` variants catch
every exception, so `asyncio.gather(..., return_exceptions=False)` never
aborts early: every unit runs to completion and the raise/return decision
is taken only after all K units have finished. If no unit raised, the K
values are returned in submission order (position i of the output is unit
i's value); if some unit raised, the error of the unit with the smallest
submission index is raised and no partial successes are returned. -/
theorem c2_ordered_fail_fast {E A : Type} (outcomes : List (Except E A)) :
    ((∀ r ∈ outcomes, r.isOk = true) →
      invokeMany outcomes = Except.ok (outcomes.filterMap Except.toOption) ∧
      ∀ (i : Nat) (v : A), outcomes[i]? = some (Except.ok v) →
        (outcomes.filterMap Except.toOption)[i]? = some v) ∧
    (∀ (i : Nat) (ex : E), outcomes[i]? = some (Except.error ex) →
      (∀ j, j < i → ∀ e2, outcomes[j]? ≠ some (Except.error e2)) →
      invokeMany outcomes = Except.error ex) := by
  constructor
  · intro hok
    constructor
    · unfold invokeMany
      rw [gatherSorted_eq_enum]
      have h1 : firstExcOf outcomes.enum = none :=
        firstExcOf_enum_none outcomes 0 hok
      rw [h1]
      have h2 : (outcomes.enum).filterMap
          (fun p : Nat × Except E A => p.2.toOption) =
          outcomes.filterMap Except.toOption :=
        filterMap_enum_toOption outcomes 0
      rw [h2]
    · exact fun i v hv => filterMap_toOption_pos outcomes hok i v hv
  · intro i ex hi hmin
    unfold invokeMany
    rw [gatherSorted_eq_enum]
    have h1 : firstExcOf outcomes.enum = some ex :=
      firstExcOf_enum_least outcomes 0 i ex hi hmin
    rw [h1]

/-- C2 witness: units [ok 1, error, ok 3] — the call raises the error of
the unit with the smallest submission index, here unit 1. -/
theorem c2_ordered_fail_fast_witness :
    invokeMany [Except.ok (1 : Nat), Except.error "boom".data, Except.ok 3]
      = Except.error "boom".data := by
  refine (c2_ordered_fail_fast _).2 1 "boom".data (by simp) ?_
  intro j hj e2
  have hj0 : j = 0 := by omega
  subst hj0
  simp

/-- Successes of the unit results, as a function of the behaviour. -/
theorem filterMap_runOne_ok {π γ : Type} (orch : Str)
    (beh : Nat → π → Except Str γ) :
    ∀ L : List (Nat × π),
      (L.map (fun q => runOneAgent orch beh q.1 q.2)).filterMap
          (fun r => r.toOption) =
        L.filterMap (fun q => (beh q.1 q.2).toOption.map
          (fun ctx => (sanitizeName (genChildName orch q.1), ctx))) := by
  intro L
  induction L with
  | nil => rfl
  | cons q t ih =>
    simp only [runOneAgent, Except.toOption, Option.map, List.map_cons,
      List.filterMap_cons] at ih ⊢
    cases hq : beh q.1 q.2 with
    | ok ctx => simp only [hq]; rw [ih]
    | error e => simp only [hq]; rw [ih]

/-- Failure Records of the unit results, as a function of the
behaviour. -/
theorem filterMap_runOne_err {π γ : Type} (orch : Str)
    (beh : Nat → π → Except Str γ) :
    ∀ L : List (Nat × π),
      (L.map (fun q => runOneAgent orch beh q.1 q.2)).filterMap
          (fun r => match r with
            | .error f => some f
            | .ok _ => none) =
        L.filterMap (fun q => match beh q.1 q.2 with
          | .error e => some ⟨genChildName orch q.1, q.1,
              "RuntimeError: ".data ++ e, q.2⟩
          | .ok _ => none) := by
  intro L
  induction L with
  | nil => rfl
  | cons q t ih =>
    simp only [runOneAgent, List.map_cons, List.filterMap_cons] at ih ⊢
    cases hq : beh q.1 q.2 with
    | ok ctx => simp only [hq]; rw [ih]
    | error e => simp only [hq]; rw [ih]

/-- Every unit result is either a success or a Failure Record. -/
theorem filterMap_results_total {π γ : Type} :
    ∀ rs : List (Except (FailureRec π) (Str × γ)),
      (rs.filterMap (fun r => r.toOption)).length +
        (rs.filterMap (fun r => match r with
          | .error f => some f
          | .ok _ => none)).length = rs.length := by
  intro rs
  induction rs with
  | nil => rfl
  | cons r t ih =>
    cases r with
    | ok x =>
      simp only [List.filterMap_cons, Except.toOption, List.length_cons] at ih ⊢
      omega
    | error f =>
      simp only [List.filterMap_cons, Except.toOption, List.length_cons] at ih ⊢
      omega

/-- C3 (amended): under the aggregate-partial policy a failing unit never
stops its siblings and the orchestrator raises no exception (the model is
a total function because `run_one` catches everything): the merged
mapping lists exactly the successful units keyed by their sanitized
generated names; each failed unit contributes exactly one Failure Record
carrying its submission index, generated unit name, error text, and the
unit's original input in full (not a truncated preview — the truncated
preview exists only in the child's session error state); and every unit
is accounted for as exactly one of the two. -/
theorem c3_aggregate_partial {π γ : Type} (orch : Str)
    (beh : Nat → π → Except Str γ) (params : List π) :
    (invokeManyAgent orch beh params).1 =
      params.enum.filterMap (fun q => (beh q.1 q.2).toOption.map
        (fun ctx => (sanitizeName (genChildName orch q.1), ctx))) ∧
    (invokeManyAgent orch beh params).2 =
      params.enum.filterMap (fun q => match beh q.1 q.2 with
        | .error e => some ⟨genChildName orch q.1, q.1,
            "RuntimeError: ".data ++ e, q.2⟩
        | .ok _ => none) ∧
    (invokeManyAgent orch beh params).1.length +
      (invokeManyAgent orch beh params).2.length = params.length := by
  refine ⟨filterMap_runOne_ok orch beh params.enum,
    filterMap_runOne_err orch beh params.enum, ?_⟩
  show ((params.enum.map (fun q => runOneAgent orch beh q.1 q.2)).filterMap
      _).length + ((params.enum.map
      (fun q => runOneAgent orch beh q.1 q.2)).filterMap _).length = _
  rw [filterMap_results_total]
  simp [List.enum_length]

set_option maxRecDepth 40000 in
/-- C3 (counterexample to the claim as stated): for a failing unit whose
input is 801 characters long, the Failure Record stores the input itself,
which differs from the truncated 800-character preview the claim
describes. -/
theorem c3_counterexample :
    (invokeManyAgent "orch".data
        (fun _ _ => (Except.error "boom".data : Except Str Unit))
        [List.replicate 801 'a']).2 =
      [⟨"orch.child.000000".data, 0, "RuntimeError: boom".data,
        List.replicate 801 'a'⟩] ∧
    truncPreview (List.replicate 801 'a') ≠ List.replicate 801 'a' := by
  decide

/-- Entering the guarded work from `waiting` adds one running unit. -/
theorem count_set_start :
    ∀ (l : List UnitPhase) (i : Nat), l[i]? = some UnitPhase.waiting →
      (l.set i UnitPhase.running).count UnitPhase.running =
        l.count UnitPhase.running + 1 := by
  intro l
  induction l with
  | nil => intro i h; simp at h
  | cons x t ih =>
    intro i h
    cases i with
    | zero =>
      simp only [List.getElem?_cons_zero, Option.some_inj] at h
      subst h
      simp [List.count_cons]
    | succ j =>
      simp only [List.getElem?_cons_succ] at h
      simp only [List.set_cons_succ, List.count_cons, ih j h]
      omega

/-- Leaving the guarded work removes one running unit. -/
theorem count_set_finish :
    ∀ (l : List UnitPhase) (i : Nat), l[i]? = some UnitPhase.running →
      (l.set i UnitPhase.done).count UnitPhase.running + 1 =
        l.count UnitPhase.running := by
  intro l
  induction l with
  | nil => intro i h; simp at h
  | cons x t ih =>
    intro i h
    cases i with
    | zero =>
      simp only [List.getElem?_cons_zero, Option.some_inj] at h
      subst h
      simp [List.count_cons]
    | succ j =>
      simp only [List.getElem?_cons_succ] at h
      simp only [List.set_cons_succ, List.count_cons]
      have := ih j h
      omega

/-- Invariant of the admission limiter with limit `L`: the number of
units inside the guarded work plus the free semaphore slots is `L`, and
the unit count never changes. -/
theorem semReach_invariant (L K : Nat) :
    ∀ s : SemState, SemReach (some L) K s →
      countRunning s + s.avail = L ∧ s.phases.length = K := by
  intro s h
  induction h with
  | init =>
    constructor
    · simp [semInit, countRunning, List.count_replicate]
    · simp [semInit]
  | @step u t hr hstep ih =>
    obtain ⟨hsum, hlen⟩ := ih
    cases hstep with
    | start i hw hpos =>
      have hp : 0 < u.avail := hpos (by simp)
      constructor
      · show (u.phases.set i UnitPhase.running).count UnitPhase.running +
          (if (some L).isSome then u.avail - 1 else u.avail) = L
        rw [count_set_start u.phases i hw]
        simp only [Option.isSome_some, if_true]
        unfold countRunning at hsum
        omega
      · simpa using hlen
    | finish i hrun =>
      constructor
      · show (u.phases.set i UnitPhase.done).count UnitPhase.running +
          (if (some L).isSome then u.avail + 1 else u.avail) = L
        have := count_set_finish u.phases i hrun
        simp only [Option.isSome_some, if_true]
        unfold countRunning at hsum
        omega
      · simpa using hlen

/-- With no limiter, every unit can enter the guarded work: the state
with all K units running is reachable. -/
theorem semReach_all_running (K : Nat) :
    ∀ k : Nat, k ≤ K →
      SemReach none K ⟨List.replicate k UnitPhase.running ++
        List.replicate (K - k) UnitPhase.waiting, 0⟩ := by
  intro k
  induction k with
  | zero =>
    intro _
    have h0 : SemReach none K (semInit none K) := SemReach.init
    simpa [semInit] using h0
  | succ k ih =>
    intro hk
    have hreach := ih (by omega)
    have hgap : K - k = (K - (k + 1)) + 1 := by omega
    have hw : (List.replicate k UnitPhase.running ++
        List.replicate (K - k) UnitPhase.waiting)[k]? =
        some UnitPhase.waiting := by
      rw [List.getElem?_append_right (by simp)]
      rw [hgap]
      simp
    have hstep := @SemStep.start none
      ⟨List.replicate k UnitPhase.running ++
        List.replicate (K - k) UnitPhase.waiting, 0⟩ k hw
      (fun hc => by simp at hc)
    have hsetrep : (List.replicate (K - k) UnitPhase.waiting).set 0
        UnitPhase.running =
        UnitPhase.running :: List.replicate (K - (k + 1)) UnitPhase.waiting := by
      rw [hgap]
      rfl
    have hset : (List.replicate k UnitPhase.running ++
        List.replicate (K - k) UnitPhase.waiting).set k UnitPhase.running =
        List.replicate (k + 1) UnitPhase.running ++
          List.replicate (K - (k + 1)) UnitPhase.waiting := by
      rw [List.set_append_right _ _ (by simp)]
      simp only [List.length_replicate, Nat.sub_self]
      rw [hsetrep, List.replicate_succ' k]
      simp [List.append_assoc]
    have hfinal := SemReach.step hreach hstep
    rw [hset] at hfinal
    simpa using hfinal

/-- C6: with admission limit L > 0, at no instant during any interleaved
execution of `invoke_many` or `invoke_many_agent` are more than L units
simultaneously inside their semaphore-guarded unit work; with admission
limit 0 (`sem = None`) no bound is imposed: for every K the state with
all K units running at once is reachable. -/
theorem c6_admission_limit :
    (∀ (L K : Nat), 0 < L → ∀ s : SemState, SemReach (some L) K s →
      countRunning s ≤ L) ∧
    (∀ K : Nat, ∃ s : SemState, SemReach none K s ∧ countRunning s = K) := by
  constructor
  · intro L K _ s h
    have := (semReach_invariant L K s h).1
    omega
  · intro K
    refine ⟨⟨List.replicate K UnitPhase.running, 0⟩, ?_, ?_⟩
    · have := semReach_all_running K K (Nat.le_refl K)
      simpa using this
    · simp [countRunning, List.count_replicate]

/-- C6 witness: L = 2, K = 5, after units 0 and 1 entered the guarded
work the in-flight count is 2 ≤ 2. -/
theorem c6_admission_limit_witness :
    countRunning ⟨[UnitPhase.running, UnitPhase.running, UnitPhase.waiting,
      UnitPhase.waiting, UnitPhase.waiting], 0⟩ ≤ 2 := by
  refine c6_admission_limit.1 2 5 (by omega)
    ⟨[UnitPhase.running, UnitPhase.running, UnitPhase.waiting,
      UnitPhase.waiting, UnitPhase.waiting], 0⟩ ?_
  have h0 : SemReach (some 2) 5 (semInit (some 2) 5) := SemReach.init
  have h1 := SemReach.step h0 (SemStep.start (semInit (some 2) 5) 0
    (by simp [semInit]) (fun _ => by simp [semInit]))
  have h2 := SemReach.step h1 (SemStep.start _ 1 (by simp [semInit])
    (fun _ => by simp [semInit]))
  simpa [semInit] using h2

/-- C7 (code bug, demonstrated on the function's own docstring example):
an itemized table block with two empty-identifier rows. The claim (and
the docstring) promise both rows merge into the parent, leaving 1 row;
the code merges only the first and then exits the loop because the merge
happened at the second-to-last position (`i_h == len(table_rows) - 1`
after the pop), returning 2 records with the second still carrying an
empty identifier. -/
theorem c7_itemized_merge_bug :
    mergeLoop 0 ["DP-2 | a".data, "| b".data, "| c".data] =
      Except.ok ["DP-2| a <br>  b".data, "| c".data] ∧
    mdTable "| DP-2 | a |\n| | b |\n| | c |".data
      [FieldType.tStr, FieldType.tStr] (some 0) =
      MdResult.pair
        [[CellValue.vStr "DP-2".data, CellValue.vStr "a <br>  b".data],
         [CellValue.vStr [], CellValue.vStr "c".data]] [] := by
  constructor
  · decide
  · decide

/-- C8 (counterexample to the claim as stated): the divider-only input
has zero table-like blocks, yet table extraction returns the bare empty
list (`return []`), not the null result the claim requires for that case;
and an input with no delimiter at all raises a `ValueError` instead of
returning null. -/
theorem c8_counterexample :
    sanitizeTable "|---|".data = Except.ok ("|---|".data, []) ∧
    detectBlocks "|---|".data = ([], true) ∧
    mdTable "|---|".data [FieldType.tStr] (some 0) = MdResult.emptyBare ∧
    MdResult.emptyBare ≠ MdResult.nullRes ∧
    mdTable "hello".data [FieldType.tStr] (some 0) = MdResult.err := by
  refine ⟨by decide, by decide, by decide, by decide, by decide⟩

/-- Computation rule of `mdTable` when sanitizing succeeds. -/
theorem mdTable_ok_eq (txt clean : Str) (defect : List Str)
    (h : sanitizeTable txt = Except.ok (clean, defect))
    (ts : List FieldType) (cid : Option Nat) :
    mdTable txt ts cid =
      (if (detectBlocks clean).1.isEmpty then
        (if (detectBlocks clean).2 then MdResult.emptyBare
          else MdResult.nullRes)
      else
        match (detectBlocks clean).1.mapM (processTable ts cid) with
        | .error _ => MdResult.err
        | .ok recss => MdResult.pair recss.flatten defect) := by
  unfold mdTable
  rw [h]

/-- Computation rule of `mdTable` when sanitizing raises. -/
theorem mdTable_err_eq (txt : Str) (e : Unit)
    (h : sanitizeTable txt = Except.error e)
    (ts : List FieldType) (cid : Option Nat) :
    mdTable txt ts cid = MdResult.err := by
  unfold mdTable
  rw [h]

/-- C8 (amended): the return shape of table extraction — null exactly
when sanitizing succeeded but zero table-like blocks were grouped and no
divider row was ever seen; the bare empty list (not the pair) exactly
when zero blocks were grouped but a divider row was seen; the
`(records, defective_lines)` pair exactly when at least one block was
grouped and every block processed without error; a raised error covers
the remaining cases (no delimiter boundary, no determinable column count,
or a failing itemized merge). -/
theorem c8_return_shape (txt : Str) (ts : List FieldType)
    (cid : Option Nat) :
    (mdTable txt ts cid = MdResult.nullRes ↔
      ∃ clean defect, sanitizeTable txt = Except.ok (clean, defect) ∧
        (detectBlocks clean).1 = [] ∧ (detectBlocks clean).2 = false) ∧
    (mdTable txt ts cid = MdResult.emptyBare ↔
      ∃ clean defect, sanitizeTable txt = Except.ok (clean, defect) ∧
        (detectBlocks clean).1 = [] ∧ (detectBlocks clean).2 = true) ∧
    ((∃ recs defect, mdTable txt ts cid = MdResult.pair recs defect) ↔
      ∃ clean defect recss, sanitizeTable txt = Except.ok (clean, defect) ∧
        (detectBlocks clean).1 ≠ [] ∧
        (detectBlocks clean).1.mapM (processTable ts cid) =
          Except.ok recss) := by
  rcases hs : sanitizeTable txt with he | ⟨clean, defect⟩
  · have hmd := mdTable_err_eq txt he hs ts cid
    refine ⟨⟨fun hgiven => ?_, fun hgiven => ?_⟩, ⟨fun hgiven => ?_, fun hgiven => ?_⟩,
      ⟨fun hgiven => ?_, fun hgiven => ?_⟩⟩
    · rw [hmd] at hgiven; exact absurd hgiven (by simp)
    · obtain ⟨c, d, hc, _⟩ := hgiven; exact absurd hc (by simp)
    · rw [hmd] at hgiven; exact absurd hgiven (by simp)
    · obtain ⟨c, d, hc, _⟩ := hgiven; exact absurd hc (by simp)
    · obtain ⟨r, d2, hr⟩ := hgiven; rw [hmd] at hr; exact absurd hr (by simp)
    · obtain ⟨c, d, r, hc, _⟩ := hgiven; exact absurd hc (by simp)
  · have hmd0 := mdTable_ok_eq txt clean defect hs ts cid
    by_cases hb : (detectBlocks clean).1 = []
    · have hbe : (detectBlocks clean).1.isEmpty = true := by
        simp [List.isEmpty_iff, hb]
      by_cases hf : (detectBlocks clean).2 = true
      · have hmd : mdTable txt ts cid = MdResult.emptyBare := by
          rw [hmd0]
          simp [hbe, hf]
        refine ⟨⟨fun hgiven => ?_, fun hgiven => ?_⟩,
          ⟨fun _ => ⟨clean, defect, rfl, hb, hf⟩, fun _ => hmd⟩,
          ⟨fun hgiven => ?_, fun hgiven => ?_⟩⟩
        · rw [hmd] at hgiven; exact absurd hgiven (by simp)
        · obtain ⟨c, d, hc, hb2, hf2⟩ := hgiven
          simp only [Except.ok.injEq, Prod.mk.injEq] at hc
          rw [← hc.1] at hf2
          exact absurd (hf.symm.trans hf2) (by simp)
        · obtain ⟨r, d2, hr⟩ := hgiven; rw [hmd] at hr; exact absurd hr (by simp)
        · obtain ⟨c, d, r, hc, hne, _⟩ := hgiven
          simp only [Except.ok.injEq, Prod.mk.injEq] at hc
          rw [← hc.1] at hne
          exact absurd hb hne
      · have hf2 : (detectBlocks clean).2 = false := by simpa using hf
        have hmd : mdTable txt ts cid = MdResult.nullRes := by
          rw [hmd0]
          simp [hbe, hf2]
        refine ⟨⟨fun _ => ⟨clean, defect, rfl, hb, hf2⟩, fun _ => hmd⟩,
          ⟨fun hgiven => ?_, fun hgiven => ?_⟩, ⟨fun hgiven => ?_, fun hgiven => ?_⟩⟩
        · rw [hmd] at hgiven; exact absurd hgiven (by simp)
        · obtain ⟨c, d, hc, hb2, hf3⟩ := hgiven
          simp only [Except.ok.injEq, Prod.mk.injEq] at hc
          rw [← hc.1] at hf3
          exact absurd (hf3.symm.trans hf2) (by simp)
        · obtain ⟨r, d2, hr⟩ := hgiven; rw [hmd] at hr; exact absurd hr (by simp)
        · obtain ⟨c, d, r, hc, hne, _⟩ := hgiven
          simp only [Except.ok.injEq, Prod.mk.injEq] at hc
          rw [← hc.1] at hne
          exact absurd hb hne
    · have hbe : (detectBlocks clean).1.isEmpty = false := by
        simp [List.isEmpty_iff, hb]
      rw [hbe] at hmd0
      simp only [Bool.false_eq_true, if_false] at hmd0
      rcases hp : (detectBlocks clean).1.mapM (processTable ts cid) with
        pe | recss
      · rw [hp] at hmd0
        refine ⟨⟨fun hgiven => ?_, fun hgiven => ?_⟩, ⟨fun hgiven => ?_, fun hgiven => ?_⟩,
          ⟨fun hgiven => ?_, fun hgiven => ?_⟩⟩
        · rw [hmd0] at hgiven; exact absurd hgiven (by simp)
        · obtain ⟨c, d, hc, hb2, _⟩ := hgiven
          simp only [Except.ok.injEq, Prod.mk.injEq] at hc
          rw [← hc.1] at hb2
          exact absurd hb2 hb
        · rw [hmd0] at hgiven; exact absurd hgiven (by simp)
        · obtain ⟨c, d, hc, hb2, _⟩ := hgiven
          simp only [Except.ok.injEq, Prod.mk.injEq] at hc
          rw [← hc.1] at hb2
          exact absurd hb2 hb
        · obtain ⟨r, d2, hr⟩ := hgiven; rw [hmd0] at hr; exact absurd hr (by simp)
        · obtain ⟨c, d, r, hc, _, hcp⟩ := hgiven
          simp only [Except.ok.injEq, Prod.mk.injEq] at hc
          rw [← hc.1] at hcp
          exact absurd (hp.symm.trans hcp) (by simp)
      · rw [hp] at hmd0
        refine ⟨⟨fun hgiven => ?_, fun hgiven => ?_⟩, ⟨fun hgiven => ?_, fun hgiven => ?_⟩,
          ⟨fun _ => ⟨clean, defect, recss, rfl, hb, hp⟩,
            fun _ => ⟨recss.flatten, defect, hmd0⟩⟩⟩
        · rw [hmd0] at hgiven; exact absurd hgiven (by simp)
        · obtain ⟨c, d, hc, hb2, _⟩ := hgiven
          simp only [Except.ok.injEq, Prod.mk.injEq] at hc
          rw [← hc.1] at hb2
          exact absurd hb2 hb
        · rw [hmd0] at hgiven; exact absurd hgiven (by simp)
        · obtain ⟨c, d, hc, hb2, _⟩ := hgiven
          simp only [Except.ok.injEq, Prod.mk.injEq] at hc
          rw [← hc.1] at hb2
          exact absurd hb2 hb

/-- Position-wise content of a zip. -/
theorem getElem?_zip_some {A B : Type} :
    ∀ (l1 : List A) (l2 : List B) (i : Nat) (x : A) (y : B),
      l1[i]? = some x → l2[i]? = some y → (l1.zip l2)[i]? = some (x, y) := by
  intro l1
  induction l1 with
  | nil => intro l2 i x y h _; simp at h
  | cons a t ih =>
    intro l2 i x y hx hy
    cases l2 with
    | nil => simp at hy
    | cons b u =>
      cases i with
      | zero =>
        simp only [List.getElem?_cons_zero, Option.some_inj] at hx hy
        simp [List.zip_cons_cons, hx, hy]
      | succ j =>
        simp only [List.getElem?_cons_succ] at hx hy
        simpa [List.zip_cons_cons] using ih u j x y hx hy

/-- C9: positional type coercion of one processed row. `procCols` is the
column list after delimiter split and markdown stripping; position `j`
of the produced record is the `j`-th column coerced to the `j`-th schema
field type: an integer field parses a digit-only cell or degrades to
empty; a float field parses an unsigned decimal literal or degrades to
empty (coercion failure is never fatal — the conversion is total); a
boolean field is true exactly when the lowered cell is in the
truthy-token set; any other field keeps the markdown-stripped cell as a
string. -/
theorem c9_positional_coercion (ts : List FieldType) (row : Str) (j : Nat)
    (t : FieldType) (c : Str)
    (ht : ts[j]? = some t)
    (hc : ((splitChar '|' row).map
      (fun x => pyStrip (removeMd x)))[j]? = some c) :
    (rowToRecord ts row)[j]? = some (convertCol t c) ∧
    (isDigitStr c = true →
      convertCol FieldType.tInt c = CellValue.vInt (some (digitsToNat c))) ∧
    (isDigitStr c = false →
      convertCol FieldType.tInt c = CellValue.vInt none) ∧
    (floatLit c = none →
      convertCol FieldType.tFloat c = CellValue.vFloat none) ∧
    (∀ q : ℚ, floatLit c = some q →
      convertCol FieldType.tFloat c = CellValue.vFloat (some q)) ∧
    (convertCol FieldType.tBool c = CellValue.vBool true ↔
      lowerStr c ∈ truthyTokens) ∧
    convertCol FieldType.tStr c = CellValue.vStr c := by
  refine ⟨?_, ?_, ?_, ?_, ?_, ?_, ?_⟩
  · unfold rowToRecord
    have hz := getElem?_zip_some ts
      ((splitChar '|' row).map (fun x => pyStrip (removeMd x))) j t c ht hc
    simp only [List.getElem?_map, hz]
    rfl
  · intro h; simp [convertCol, h]
  · intro h; simp [convertCol, h]
  · intro h; simp [convertCol, h]
  · intro q h; simp [convertCol, h]
  · simp [convertCol, List.elem_iff]
  · rfl

/-- C9 witness: row "**seven** | 42 | yes" against schema
[string, integer, boolean] — markdown stripped from the string cell, the
digit cell parsed, the truthy token recognised. -/
theorem c9_positional_coercion_witness :
    (rowToRecord [FieldType.tStr, FieldType.tInt, FieldType.tBool]
        "**seven** | 42 | yes".data)[1]? =
      some (CellValue.vInt (some 42)) ∧
    (rowToRecord [FieldType.tStr, FieldType.tInt, FieldType.tBool]
        "**seven** | 42 | yes".data)[0]? =
      some (CellValue.vStr "seven".data) := by
  constructor
  · have h := (c9_positional_coercion
      [FieldType.tStr, FieldType.tInt, FieldType.tBool]
      "**seven** | 42 | yes".data 1 FieldType.tInt "42".data
      (by decide) (by decide)).1
    rw [h]
    decide
  · have h := (c9_positional_coercion
      [FieldType.tStr, FieldType.tInt, FieldType.tBool]
      "**seven** | 42 | yes".data 0 FieldType.tStr "seven".data
      (by decide) (by decide)).1
    rw [h]
    decide

/-- C1 (counterexample to the claim as stated): a well-formed table with
M = 0 data rows (header and divider only). The claim requires the
`(records, defective_lines)` output with 0 records; the code instead
returns the bare empty list (`return []` at line 720), a value of a
different shape that the caller's tuple unpacking at line 286 cannot even
destructure. -/
theorem c1_counterexample :
    serializeTable 1 ["h".data] [] = "| h |\n| --- |".data ∧
    mdTable "| h |\n| --- |".data [FieldType.tStr] (some 0) =
      MdResult.emptyBare ∧
    (∀ defect : List Str,
      MdResult.emptyBare ≠ MdResult.pair [] defect) := by
  refine ⟨by decide, by decide, fun defect => by simp⟩

/-!
## Generic text lemmas for the extraction proof
-/

theorem splitChar_ne_nil (sep : Char) (s : Str) : splitChar sep s ≠ [] := by
  cases s with
  | nil => simp [splitChar]
  | cons c t =>
    simp only [splitChar]
    rcases splitChar sep t with _ | ⟨h1, r⟩
    · simp
    · by_cases hc : c = sep <;> simp [hc]

theorem splitChar_sep_cons (sep : Char) (t : Str) :
    splitChar sep (sep :: t) = [] :: splitChar sep t := by
  simp only [splitChar]
  rcases h : splitChar sep t with _ | ⟨h1, r⟩
  · exact absurd h (splitChar_ne_nil sep t)
  · simp

theorem splitChar_nosep (sep : Char) :
    ∀ a : Str, sep ∉ a → splitChar sep a = [a]
  | [], _ => rfl
  | c :: t, h => by
    simp only [splitChar]
    rw [splitChar_nosep sep t (fun hm => h (by simp [hm]))]
    simp only [if_neg (show ¬(c = sep) from fun hc => h (by simp [hc]))]

theorem splitChar_append_sep (sep : Char) :
    ∀ (a b : Str), sep ∉ a →
      splitChar sep (a ++ sep :: b) = a :: splitChar sep b
  | [], b, _ => by simpa using splitChar_sep_cons sep b
  | c :: t, b, h => by
    have ih := splitChar_append_sep sep t b (fun hm => h (by simp [hm]))
    have hc : ¬(c = sep) := fun hcc => h (by simp [hcc])
    show splitChar sep (c :: (t ++ sep :: b)) = _
    simp only [splitChar]
    rw [ih]
    simp [hc]

theorem splitChar_flatMap_rows :
    ∀ cs : List Str, (∀ c ∈ cs, '|' ∉ c) →
      splitChar '|' (cs.flatMap (fun c => padCell c ++ ['|'])) =
        cs.map padCell ++ [[]]
  | [], _ => rfl
  | c :: t, h => by
    have hpc : '|' ∉ padCell c := by
      intro hm
      simp only [padCell] at hm
      rcases List.mem_cons.mp hm with hm | hm
      · exact absurd hm (by decide)
      · rcases List.mem_append.mp hm with hm | hm
        · exact h c (by simp) hm
        · exact absurd (List.mem_singleton.mp hm) (by decide)
    have ih := splitChar_flatMap_rows t (fun x hx => h x (by simp [hx]))
    simp only [List.flatMap_cons, List.append_assoc, List.singleton_append]
    rw [splitChar_append_sep '|' (padCell c) _ hpc, ih]
    simp

theorem splitChar_mkRow (cs : List Str) (h : ∀ c ∈ cs, '|' ∉ c) :
    splitChar '|' (mkRow cs) = [] :: (cs.map padCell ++ [[]]) := by
  unfold mkRow
  rw [splitChar_sep_cons, splitChar_flatMap_rows cs h]

theorem count_flat_rows :
    ∀ cs : List Str, (∀ c ∈ cs, '|' ∉ c) →
      (cs.flatMap (fun c => padCell c ++ ['|'])).count '|' = cs.length
  | [], _ => by simp
  | c :: t, h => by
    have h0 : (padCell c).count '|' = 0 := by
      rw [List.count_eq_zero]
      intro hm
      simp only [padCell] at hm
      rcases List.mem_cons.mp hm with hm | hm
      · exact absurd hm.symm (by decide)
      · rcases List.mem_append.mp hm with hm | hm
        · exact h c (by simp) hm
        · exact absurd (List.mem_singleton.mp hm).symm (by decide)
    have ih := count_flat_rows t (fun x hx => h x (by simp [hx]))
    simp only [List.flatMap_cons, List.count_append, h0, ih,
      List.length_cons]
    simp [List.count_singleton]
    omega

theorem count_mkRow (cs : List Str) (h : ∀ c ∈ cs, '|' ∉ c) :
    (mkRow cs).count '|' = cs.length + 1 := by
  unfold mkRow
  rw [List.count_cons, count_flat_rows cs h]
  simp

theorem mkRow_headD (cs : List Str) : (mkRow cs).headD ' ' = '|' := rfl

theorem flat_rows_getLast :
    ∀ cs : List Str, cs ≠ [] →
      (cs.flatMap (fun c => padCell c ++ ['|'])).getLast? = some '|'
  | [c], _ => by simp
  | c :: d :: u, _ => by
    show ((padCell c ++ ['|']) ++
      ((d :: u).flatMap (fun c => padCell c ++ ['|']))).getLast? = some '|'
    rw [List.getLast?_append, flat_rows_getLast (d :: u) (by simp)]
    rfl

theorem mkRow_getLast (cs : List Str) : (mkRow cs).getLast? = some '|' := by
  rcases cs with _ | ⟨c, t⟩
  · rfl
  · show (['|'] ++ ((c :: t).flatMap (fun c => padCell c ++ ['|']))).getLast?
      = some '|'
    rw [List.getLast?_append, flat_rows_getLast (c :: t) (by simp)]
    rfl

theorem mkRow_mem (cs : List Str) (ch : Char) (h : ch ∈ mkRow cs) :
    ch = '|' ∨ ch = ' ' ∨ ∃ c ∈ cs, ch ∈ c := by
  unfold mkRow at h
  rcases List.mem_cons.mp h with h | h
  · exact Or.inl h
  · rcases List.mem_flatMap.mp h with ⟨c, hc, hm⟩
    rcases List.mem_append.mp hm with hm | hm
    · simp only [padCell] at hm
      rcases List.mem_cons.mp hm with hm | hm
      · exact Or.inr (Or.inl hm)
      · rcases List.mem_append.mp hm with hm | hm
        · exact Or.inr (Or.inr ⟨c, hc, hm⟩)
        · exact Or.inr (Or.inl (List.mem_singleton.mp hm))
    · exact Or.inl (List.mem_singleton.mp hm)

theorem intercalate_cons2 (sep : Str) (a : Str) (l : List Str)
    (h : l ≠ []) :
    List.intercalate sep (a :: l) = a ++ sep ++ List.intercalate sep l := by
  rcases l with _ | ⟨b, t⟩
  · exact absurd rfl h
  · simp [List.intercalate, List.intersperse]

theorem intercalate_single (sep : Str) (a : Str) :
    List.intercalate sep [a] = a := by
  simp [List.intercalate]

theorem mem_intercalate (sep : Str) (ch : Char) :
    ∀ ls : List Str, ch ∈ List.intercalate sep ls →
      ch ∈ sep ∨ ∃ l ∈ ls, ch ∈ l
  | [], h => by simp [List.intercalate] at h
  | [a], h => by
    rw [intercalate_single] at h
    exact Or.inr ⟨a, by simp, h⟩
  | a :: b :: t, h => by
    rw [intercalate_cons2 sep a (b :: t) (by simp)] at h
    rcases List.mem_append.mp h with h1 | h2
    · rcases List.mem_append.mp h1 with ha | hs
      · exact Or.inr ⟨a, by simp, ha⟩
      · exact Or.inl hs
    · rcases mem_intercalate sep ch (b :: t) h2 with hs | ⟨l, hl, hcl⟩
      · exact Or.inl hs
      · exact Or.inr ⟨l, List.mem_cons_of_mem a hl, hcl⟩

theorem replace2_noop (a b : Char) (rep : Str) :
    ∀ s : Str, List.Chain' (fun x y => ¬(x = a ∧ y = b)) s →
      replace2 a b rep s = s
  | [], _ => rfl
  | [_], _ => rfl
  | c :: d :: t, h => by
    rcases List.chain'_cons.mp h with ⟨h1, h2⟩
    show (if c = a ∧ d = b then rep ++ replace2 a b rep t
      else c :: replace2 a b rep (d :: t)) = c :: d :: t
    rw [if_neg h1, replace2_noop a b rep (d :: t) h2]

theorem chain'_of_not_fst {a b : Char} :
    ∀ s : Str, (∀ x ∈ s, ¬x = a) →
      List.Chain' (fun x y => ¬(x = a ∧ y = b)) s
  | [], _ => List.chain'_nil
  | [c], _ => List.chain'_singleton c
  | c :: d :: t, h => List.chain'_cons.mpr
    ⟨fun hc => h c (by simp) hc.1,
     chain'_of_not_fst (d :: t) (fun x hx => h x (List.mem_cons_of_mem c hx))⟩

theorem chain'_of_not_snd {a b : Char} :
    ∀ s : Str, (∀ x ∈ s, ¬x = b) →
      List.Chain' (fun x y => ¬(x = a ∧ y = b)) s
  | [], _ => List.chain'_nil
  | [c], _ => List.chain'_singleton c
  | c :: d :: t, h => List.chain'_cons.mpr
    ⟨fun hc => h d (by simp) hc.2,
     chain'_of_not_snd (d :: t) (fun x hx => h x (List.mem_cons_of_mem c hx))⟩

theorem replace2_noop_of_not_mem (a b : Char) (rep : Str) (s : Str)
    (h : a ∉ s) : replace2 a b rep s = s :=
  replace2_noop a b rep s
    (chain'_of_not_fst s (fun x hx he => h (he ▸ hx)))

theorem replace2_noop_of_not_mem_snd (a b : Char) (rep : Str) (s : Str)
    (h : b ∉ s) : replace2 a b rep s = s :=
  replace2_noop a b rep s
    (chain'_of_not_snd s (fun x hx he => h (he ▸ hx)))

theorem replace3_noop (a b c : Char) (rep : Str) :
    ∀ s : Str, a ∉ s → replace3 a b c rep s = s
  | [], _ => rfl
  | [_], _ => rfl
  | [_, _], _ => rfl
  | x :: y :: z :: t, h => by
    show (if x = a ∧ y = b ∧ z = c then rep ++ replace3 a b c rep t
      else x :: replace3 a b c rep (y :: z :: t)) = x :: y :: z :: t
    rw [if_neg (fun hx => h (by rw [← hx.1]; exact List.mem_cons_self x _)),
      replace3_noop a b c rep (y :: z :: t)
        (fun hm => h (List.mem_cons_of_mem x hm))]

theorem lstripWS_cons_of_not_ws (c : Char) (t : Str) (h : isWS c = false) :
    lstripWS (c :: t) = c :: t := by
  simp [lstripWS, List.dropWhile_cons, h]

theorem rstripWS_of_getLast (s : Str) (z : Char)
    (hz : s.getLast? = some z) (h : isWS z = false) : rstripWS s = s := by
  unfold rstripWS
  rcases hr : s.reverse with _ | ⟨c, t⟩
  · simp [List.reverse_eq_nil_iff.mp hr] at hz
  · have hcz : c = z := by
      have hh := List.head?_reverse s
      rw [hr, hz] at hh
      simpa using hh
    have h3 : List.dropWhile isWS (c :: t) = c :: t := by
      simp [List.dropWhile_cons, hcz, h]
    rw [h3, ← hr, List.reverse_reverse]

theorem pyStrip_cons_last (c : Char) (t : Str) (z : Char)
    (hc : isWS c = false) (hz : (c :: t).getLast? = some z)
    (hzw : isWS z = false) : pyStrip (c :: t) = c :: t := by
  unfold pyStrip
  rw [lstripWS_cons_of_not_ws c t hc, rstripWS_of_getLast _ z hz hzw]

theorem pyStrip_self_parts (c : Str) (h : pyStrip c = c) :
    lstripWS c = c ∧ rstripWS c = c := by
  have hsub : lstripWS c <:+ c := List.dropWhile_suffix _
  have hl2 : (rstripWS (lstripWS c)).length ≤ (lstripWS c).length := by
    have hss : ((lstripWS c).reverse.dropWhile isWS).length ≤
        (lstripWS c).reverse.length := (List.dropWhile_sublist _).length_le
    unfold rstripWS
    simpa using hss
  have h2 : rstripWS (lstripWS c) = c := h
  have hlen : (rstripWS (lstripWS c)).length = c.length := by rw [h2]
  have hlenl : (lstripWS c).length = c.length := by
    have := hsub.length_le
    omega
  have hl : lstripWS c = c := hsub.eq_of_length hlenl
  rw [hl] at h2
  exact ⟨hl, h2⟩

theorem head_not_ws_of_lstrip (c : Char) (t : Str)
    (h : lstripWS (c :: t) = c :: t) : isWS c = false := by
  by_contra hby
  simp only [Bool.not_eq_false] at hby
  simp only [lstripWS, List.dropWhile_cons, hby, if_true] at h
  have hlen := congrArg List.length h
  have hle : (t.dropWhile isWS).length ≤ t.length :=
    (List.dropWhile_sublist _).length_le
  simp at hlen
  omega

theorem last_not_ws_of_rstrip (s : Str) (z : Char)
    (h : rstripWS s = s) (hz : s.getLast? = some z) : isWS z = false := by
  have hrev : s.reverse.dropWhile isWS = s.reverse := by
    have h2 := congrArg List.reverse h
    unfold rstripWS at h2
    simpa using h2
  rcases hr : s.reverse with _ | ⟨c, t⟩
  · simp [List.reverse_eq_nil_iff.mp hr] at hz
  · have hcz : c = z := by
      have hh := List.head?_reverse s
      rw [hr, hz] at hh
      simpa using hh
    rw [hr] at hrev
    exact hcz ▸ head_not_ws_of_lstrip c t hrev

theorem lstripWS_space_cons (y : Str) : lstripWS (' ' :: y) = lstripWS y := by
  simp [lstripWS, List.dropWhile_cons, show isWS ' ' = true from rfl]

theorem rstripWS_append_space (y : Str) :
    rstripWS (y ++ [' ']) = rstripWS y := by
  unfold rstripWS
  rw [List.reverse_append]
  simp [List.dropWhile_cons, isWS]

theorem pyStrip_padCell (c : Str) (h : pyStrip c = c) :
    pyStrip (padCell c) = c := by
  rcases pyStrip_self_parts c h with ⟨hl, hr⟩
  rcases c with _ | ⟨x, t⟩
  · decide
  · have hx : isWS x = false := head_not_ws_of_lstrip x t hl
    show pyStrip (' ' :: ((x :: t) ++ [' '])) = x :: t
    unfold pyStrip
    rw [show lstripWS (' ' :: ((x :: t) ++ [' '])) = (x :: t) ++ [' '] from by
      rw [lstripWS_space_cons, List.cons_append,
        lstripWS_cons_of_not_ws x _ hx]]
    rw [rstripWS_append_space, hr]

theorem pyStrip_mkRow (cs : List Str) : pyStrip (mkRow cs) = mkRow cs := by
  rcases hm : mkRow cs with _ | ⟨c, t⟩
  · rfl
  · have hc : c = '|' := by
      have h2 := mkRow_headD cs
      rw [hm] at h2
      simpa using h2
    have hz := mkRow_getLast cs
    rw [hm] at hz
    exact pyStrip_cons_last c t '|' (by rw [hc]; decide) hz (by decide)

theorem findIdx_pipe_head (t : Str) :
    List.findIdx? (fun c => c = '|') ('|' :: t) = some 0 := by
  simp [List.findIdx?_cons]

theorem trimPipes_fix (s : Str) (hh : s.headD ' ' = '|')
    (hl : s.getLast? = some '|') (h2 : 2 ≤ s.length) :
    trimPipes s = .ok s := by
  rcases s with _ | ⟨c, t⟩
  · simp at h2
  · have hc : c = '|' := by simpa using hh
    subst hc
    have hrev : ∃ u : Str, ('|' :: t).reverse = '|' :: u := by
      rcases hr : ('|' :: t).reverse with _ | ⟨d, u⟩
      · exact absurd (congrArg List.length hr) (by simp)
      · have hd : d = '|' := by
          have hh2 := List.head?_reverse ('|' :: t)
          rw [hr, hl] at hh2
          simpa using hh2
        exact ⟨u, by rw [hd]⟩
    rcases hrev with ⟨u, hu⟩
    have ht1 : 1 ≤ t.length := by
      simp only [List.length_cons] at h2
      omega
    unfold trimPipes
    simp only [hu, findIdx_pipe_head, List.length_cons]
    rw [if_neg (by omega : ¬(0 ≥ t.length + 1 - 1 - 0))]
    rw [show t.length + 1 - 1 - 0 + 1 - 0 = t.length + 1 from by omega]
    rw [List.drop_zero, List.take_of_length_le (by simp)]

theorem splitChar_intercalate (sep : Char) :
    ∀ ls : List Str, ls ≠ [] → (∀ l ∈ ls, sep ∉ l) →
      splitChar sep (List.intercalate [sep] ls) = ls
  | [], h, _ => absurd rfl h
  | [a], _, h => by
    rw [intercalate_single]
    exact splitChar_nosep sep a (h a (by simp))
  | a :: b :: t, _, h => by
    rw [intercalate_cons2 [sep] a (b :: t) (by simp), List.append_assoc,
      List.singleton_append, splitChar_append_sep sep a _ (h a (by simp)),
      splitChar_intercalate sep (b :: t) (by simp)
        (fun l hl => h l (List.mem_cons_of_mem a hl))]

theorem intercalate_headD (sep : Str) (a : Str) (l : List Str) (c x : Char)
    (ha : a.headD x = c) (hne : a ≠ []) :
    (List.intercalate sep (a :: l)).headD x = c := by
  rcases l with _ | ⟨b, t⟩
  · rw [intercalate_single]; exact ha
  · rcases a with _ | ⟨y, u⟩
    · exact absurd rfl hne
    · rw [intercalate_cons2 sep (y :: u) (b :: t) (by simp)]
      simpa using ha

theorem intercalate_getLast (sep : Str) :
    ∀ ls : List Str, ∀ z : Char, ls ≠ [] →
      (∀ l ∈ ls, l.getLast? = some z) →
      (List.intercalate sep ls).getLast? = some z
  | [], _, h, _ => absurd rfl h
  | [a], z, _, h => by rw [intercalate_single]; exact h a (by simp)
  | a :: b :: t, z, _, h => by
    have ih := intercalate_getLast sep (b :: t) z (by simp)
      (fun l hl => h l (List.mem_cons_of_mem a hl))
    rw [intercalate_cons2 sep a (b :: t) (by simp), List.append_assoc,
      List.getLast?_append, List.getLast?_append, ih]
    rfl

theorem mkRow_not_mem (cs : List Str) (ch : Char) (hp : ch ≠ '|')
    (hs : ch ≠ ' ') (h : ∀ c ∈ cs, ch ∉ c) : ch ∉ mkRow cs := by
  intro hm
  rcases mkRow_mem cs ch hm with h1 | h1 | ⟨c, hc, h1⟩
  · exact hp h1
  · exact hs h1
  · exact h c hc h1

theorem goodCell_not_mem (c : Str) (h : c.all okChar = true) (ch : Char)
    (hch : okChar ch = false) : ch ∉ c := by
  intro hm
  have h2 := List.all_eq_true.mp h ch hm
  rw [hch] at h2
  exact absurd h2 (by simp)

theorem serializeTable_eq (n : Nat) (header : List Str)
    (rows : List (List Str)) :
    serializeTable n header rows =
      List.intercalate ['\n'] (tableLines n header rows) := rfl

theorem chain'_no_pipe_aux :
    ∀ cs : List Str, (∀ c ∈ cs, '|' ∉ c) →
      List.Chain' (fun x y => ¬(x = '|' ∧ y = '|'))
        ('|' :: cs.flatMap (fun c => padCell c ++ ['|']))
  | [], _ => List.chain'_singleton '|'
  | c :: t, h => by
    have ih := chain'_no_pipe_aux t (fun x hx => h x (by simp [hx]))
    have hsplit : '|' :: ((c :: t).flatMap (fun c => padCell c ++ ['|'])) =
        ('|' :: padCell c) ++
          ('|' :: t.flatMap (fun c => padCell c ++ ['|'])) := by
      simp [List.flatMap_cons]
    rw [hsplit]
    refine List.chain'_append.mpr ⟨?_, ih, ?_⟩
    · show List.Chain' _ ('|' :: ' ' :: (c ++ [' ']))
      refine List.chain'_cons.mpr ⟨by decide, ?_⟩
      refine chain'_of_not_fst _ ?_
      intro x hx
      rcases List.mem_cons.mp hx with hx | hx
      · subst hx; decide
      · rcases List.mem_append.mp hx with hx | hx
        · exact fun he => h c (by simp) (he ▸ hx)
        · have hx2 := List.mem_singleton.mp hx
          subst hx2; decide
    · intro x hx y hy
      have hxl : ('|' :: padCell c).getLast? = some ' ' := by
        show (('|' :: ' ' :: c) ++ [' ']).getLast? = some ' '
        rw [List.getLast?_concat]
      rw [hxl] at hx
      simp only [List.head?_cons, Option.mem_def, Option.some.injEq] at hx hy
      subst hx
      subst hy
      decide

theorem chain'_mkRow (cs : List Str) (h : ∀ c ∈ cs, '|' ∉ c) :
    List.Chain' (fun x y => ¬(x = '|' ∧ y = '|')) (mkRow cs) :=
  chain'_no_pipe_aux cs h

theorem chain'_intercalate_nl (R : Char → Char → Prop)
    (hnl : ∀ x, R x '\n' ∧ R '\n' x) :
    ∀ ls : List Str, (∀ l ∈ ls, List.Chain' R l) →
      List.Chain' R (List.intercalate ['\n'] ls)
  | [], _ => by
    rw [show List.intercalate ['\n'] ([] : List Str) = [] from rfl]
    exact List.chain'_nil
  | [a], h => by
    rw [intercalate_single]
    exact h a (by simp)
  | a :: b :: t, h => by
    rw [intercalate_cons2 ['\n'] a (b :: t) (by simp), List.append_assoc]
    refine List.chain'_append.mpr ⟨h a (by simp), ?_, ?_⟩
    · refine List.chain'_append.mpr ⟨List.chain'_singleton _,
        chain'_intercalate_nl R hnl (b :: t)
          (fun l hl => h l (List.mem_cons_of_mem a hl)), ?_⟩
      intro x hx y hy
      simp only [Option.mem_def] at hx
      have hx2 := Option.some.inj hx
      subst hx2
      exact (hnl y).2
    · intro x hx y hy
      simp only [List.singleton_append, List.head?_cons, Option.mem_def,
        Option.some.injEq] at hy
      subst hy
      exact (hnl x).1

theorem goodCell_facts (c : Str) (h : goodCell c) :
    '|' ∉ c ∧ '\\' ∉ c ∧ '<' ∉ c ∧ '\n' ∉ c ∧ '*' ∉ c ∧ '_' ∉ c :=
  ⟨goodCell_not_mem c h.1 '|' (by decide),
   goodCell_not_mem c h.1 '\\' (by decide),
   goodCell_not_mem c h.1 '<' (by decide),
   goodCell_not_mem c h.1 '\n' (by decide),
   goodCell_not_mem c h.1 '*' (by decide),
   goodCell_not_mem c h.1 '_' (by decide)⟩

theorem mkRow_line_facts (cs : List Str) (hne : cs ≠ [])
    (hg : ∀ c ∈ cs, goodCell c) :
    (mkRow cs).headD ' ' = '|' ∧ (mkRow cs).getLast? = some '|' ∧
    2 ≤ (mkRow cs).length ∧ pyStrip (mkRow cs) = mkRow cs ∧
    '\n' ∉ mkRow cs ∧ '\\' ∉ mkRow cs ∧ '<' ∉ mkRow cs ∧
    List.Chain' (fun x y => ¬(x = '|' ∧ y = '|')) (mkRow cs) := by
  have hpf : ∀ c ∈ cs, '|' ∉ c := fun c hc => (goodCell_facts c (hg c hc)).1
  refine ⟨mkRow_headD cs, mkRow_getLast cs, ?_, pyStrip_mkRow cs,
    mkRow_not_mem cs '\n' (by decide) (by decide)
      (fun c hc => (goodCell_facts c (hg c hc)).2.2.2.1),
    mkRow_not_mem cs '\\' (by decide) (by decide)
      (fun c hc => (goodCell_facts c (hg c hc)).2.1),
    mkRow_not_mem cs '<' (by decide) (by decide)
      (fun c hc => (goodCell_facts c (hg c hc)).2.2.1),
    chain'_mkRow cs hpf⟩
  rcases cs with _ | ⟨c, t⟩
  · exact absurd rfl hne
  · simp [mkRow, List.flatMap_cons, padCell]

theorem mem_dropLast_of_ne_last (l : Str) (x z : Char)
    (hx : x ∈ l) (hz : l.getLast? = some z) (hne : x ≠ z) :
    x ∈ l.dropLast := by
  have h1 := List.dropLast_append_getLast? z hz
  rw [← h1] at hx
  rcases List.mem_append.mp hx with h | h
  · exact h
  · exact absurd (List.mem_singleton.mp h) hne

theorem isDividerLine_divider (n : Nat) (hn : 1 ≤ n) :
    isDividerLine (mkRow (List.replicate n dashCell)) = true := by
  have hlen : 3 ≤ (mkRow (List.replicate n dashCell)).length := by
    rcases n with _ | m
    · omega
    · rw [List.replicate_succ]
      simp [mkRow, List.flatMap_cons, padCell, dashCell]
  have hall : ((mkRow (List.replicate n dashCell)).drop 1).dropLast.all
      (fun c => isWS c || c = ':' || c = '-' || c = '|') = true := by
    rw [List.all_eq_true]
    intro ch hch
    have h2 : ch ∈ mkRow (List.replicate n dashCell) :=
      List.drop_subset _ _ (List.dropLast_subset _ hch)
    rcases mkRow_mem _ ch h2 with h3 | h3 | ⟨c, hc, h3⟩
    · subst h3; decide
    · subst h3; decide
    · rw [List.eq_of_mem_replicate hc] at h3
      have h4 : ch = '-' := by simpa [dashCell] using h3
      subst h4; decide
  unfold isDividerLine
  simp only [Bool.and_eq_true, decide_eq_true_eq]
  refine ⟨⟨⟨hlen, mkRow_headD _⟩, ?_⟩, hall⟩
  rw [List.getLastD_eq_getLast?, mkRow_getLast]
  rfl

theorem not_divider_of_content (cs : List Str) (hcont : rowHasContent cs)
    (hpf : ∀ c ∈ cs, '|' ∉ c) : isDividerLine (mkRow cs) = false := by
  rcases hcont with ⟨c, hc, ch, hch, hcc⟩
  have hchp : ch ≠ '|' := fun he => by
    rw [he] at hcc; exact absurd hcc (by decide)
  have hbody : ch ∈ cs.flatMap (fun c => padCell c ++ ['|']) :=
    List.mem_flatMap.mpr ⟨c, hc, by simp [padCell, hch]⟩
  have hinner : ch ∈ ((mkRow cs).drop 1).dropLast := by
    have hdrop : (mkRow cs).drop 1 = cs.flatMap (fun c => padCell c ++ ['|'])
      := rfl
    rw [hdrop]
    exact mem_dropLast_of_ne_last _ ch '|' hbody
      (flat_rows_getLast cs (by rintro rfl; simp at hc)) hchp
  by_contra hb
  simp only [Bool.not_eq_false] at hb
  unfold isDividerLine at hb
  simp only [Bool.and_eq_true] at hb
  have hall := List.all_eq_true.mp hb.2 ch hinner
  simp only [Bool.or_eq_true, decide_eq_true_eq] at hall
  rcases hall with ((hws | h3) | h3) | h3
  · rw [contentChar, hws] at hcc; simp at hcc
  · subst h3; exact absurd hcc (by decide)
  · subst h3; exact absurd hcc (by decide)
  · exact hchp h3

theorem detectNumCols_tableLines (n : Nat) (header : List Str)
    (rows : List (List Str)) (hn : 1 ≤ n) (hh : wfHeader n header)
    (hr : ∀ r ∈ rows, wfDataRow n r) :
    detectNumCols (tableLines n header rows) = n := by
  have hpfh : ∀ c ∈ header, '|' ∉ c :=
    fun c hc => (goodCell_facts c (hh.2.1 c hc)).1
  have hneg : (fun l => isDividerLine (pyStrip l)) (mkRow header) = false := by
    simp only [pyStrip_mkRow]
    exact not_divider_of_content header hh.2.2 hpfh
  have hpos : (fun l => isDividerLine (pyStrip l))
      (mkRow (List.replicate n dashCell)) = true := by
    simp only [pyStrip_mkRow]
    exact isDividerLine_divider n hn
  unfold detectNumCols tableLines
  rw [List.find?_cons_of_neg _ (by simpa using hneg),
    List.find?_cons_of_pos _ (by simpa using hpos)]
  show (mkRow (List.replicate n dashCell)).count '|' - 1 = n
  rw [count_mkRow _ (fun c hc => by
    rw [List.eq_of_mem_replicate hc]; decide)]
  simp

theorem expandBr_no_nl (s : Str) (h : '\n' ∉ s) : expandBr s = s := by
  unfold expandBr
  induction s with
  | nil => rfl
  | cons c t ih =>
    rw [List.flatMap_cons,
      if_neg (fun he => h (by rw [he]; exact List.mem_cons_self _ _)),
      ih (fun hm => h (List.mem_cons_of_mem c hm))]
    rfl

theorem expandBr_append (a b : Str) :
    expandBr (a ++ b) = expandBr a ++ expandBr b := by
  unfold expandBr
  rw [List.flatMap_append]

theorem expandBr_intercalate :
    ∀ ls : List Str, (∀ l ∈ ls, '\n' ∉ l) →
      expandBr (List.intercalate ['\n'] ls) =
        List.intercalate "<br>".data ls
  | [], _ => rfl
  | [a], h => by
    rw [intercalate_single, intercalate_single]
    exact expandBr_no_nl a (h a (by simp))
  | a :: b :: t, h => by
    rw [intercalate_cons2 ['\n'] a (b :: t) (by simp),
      intercalate_cons2 "<br>".data a (b :: t) (by simp),
      expandBr_append, expandBr_append,
      expandBr_no_nl a (h a (by simp)),
      expandBr_intercalate (b :: t)
        (fun l hl => h l (List.mem_cons_of_mem a hl))]
    rfl

theorem matchBr_some_mem (s : Str) (k : Nat) (h : matchBr s = some k) :
    '<' ∈ s := by
  rcases s with _ | ⟨c, t⟩
  · exact absurd h (by simp [matchBr])
  · simp only [matchBr] at h
    by_cases hc : c = '|'
    · rw [if_pos hc] at h
      by_cases hp : "<br>".data.isPrefixOf (t.dropWhile isWS) = true
      · have hpre := List.isPrefixOf_iff_prefix.mp hp
        have hlt : '<' ∈ t.dropWhile isWS := hpre.subset (by decide)
        exact List.mem_cons_of_mem c ((List.dropWhile_sublist _).subset hlt)
      · rw [if_neg hp] at h
        exact absurd h (by simp)
    · rw [if_neg hc] at h
      exact absurd h (by simp)

theorem brGo_no_lt : ∀ s : Str, '<' ∉ s → brGo 0 s = s
  | [], _ => rfl
  | c :: t, h => by
    show (match matchBr (c :: t) with
      | some consumed => '|' :: '\n' :: '|' :: brGo (consumed - 1) t
      | none => c :: brGo 0 t) = c :: t
    rcases hm : matchBr (c :: t) with _ | k
    · rw [brGo_no_lt t (fun hmm => h (List.mem_cons_of_mem c hmm))]
    · exact absurd (matchBr_some_mem _ k hm) h

theorem brGo_skip : ∀ (a b : Str), brGo a.length (a ++ b) = brGo 0 b
  | [], _ => rfl
  | _ :: t, b => brGo_skip t b

theorem matchBr_cons_ne (c : Char) (r : Str) (hc : ¬c = '|') :
    matchBr (c :: r) = none := by
  simp only [matchBr, if_neg hc]

theorem matchBr_pipe_none (r : Str)
    (hp : "<br>".data.isPrefixOf (r.dropWhile isWS) = false) :
    matchBr ('|' :: r) = none := by
  simp [matchBr, hp]

theorem brGo_zero_cons (c : Char) (t : Str) :
    brGo 0 (c :: t) = match matchBr (c :: t) with
      | some consumed => '|' :: '\n' :: '|' :: brGo (consumed - 1) t
      | none => c :: brGo 0 t := rfl

theorem brGo_zero_none (c : Char) (t : Str) (h : matchBr (c :: t) = none) :
    brGo 0 (c :: t) = c :: brGo 0 t := by
  rw [brGo_zero_cons, h]

theorem brGo_zero_some (c : Char) (t : Str) (k : Nat)
    (h : matchBr (c :: t) = some k) :
    brGo 0 (c :: t) = '|' :: '\n' :: '|' :: brGo (k - 1) t := by
  rw [brGo_zero_cons, h]

theorem brGo_match :
    ∀ (m z0 : Str), m.getLast? = some '|' → '<' ∉ m →
      brGo 0 (m ++ ('<' :: 'b' :: 'r' :: '>' :: '|' :: z0)) =
        m.dropLast ++ ('|' :: '\n' :: '|' :: brGo 0 z0)
  | [], _, hlast, _ => by simp at hlast
  | [c], z0, hlast, _ => by
    have hc : c = '|' := by simpa using hlast
    subst hc
    show brGo 0 ('|' :: '<' :: 'b' :: 'r' :: '>' :: '|' :: z0) =
      '|' :: '\n' :: '|' :: brGo 0 z0
    rw [brGo_zero_some '|' ('<' :: 'b' :: 'r' :: '>' :: '|' :: z0) 6 rfl]
    show '|' :: '\n' :: '|' ::
        brGo (['<', 'b', 'r', '>', '|'] : Str).length
          (['<', 'b', 'r', '>', '|'] ++ z0) =
      '|' :: '\n' :: '|' :: brGo 0 z0
    rw [brGo_skip]
  | c :: d :: u, z0, hlast, hlt => by
    have hlast2 : (d :: u).getLast? = some '|' := by
      rw [List.getLast?_cons_cons] at hlast
      exact hlast
    have hlt2 : '<' ∉ (d :: u) := fun hm => hlt (List.mem_cons_of_mem c hm)
    have ih := brGo_match (d :: u) z0 hlast2 hlt2
    have hmain : matchBr (c :: ((d :: u) ++
        ('<' :: 'b' :: 'r' :: '>' :: '|' :: z0))) = none := by
      by_cases hc : c = '|'
      · subst hc
        apply matchBr_pipe_none
        have hpipe : '|' ∈ (d :: u) := List.mem_of_getLast?_eq_some hlast2
        have hne : (d :: u).dropWhile isWS ≠ [] := by
          rw [Ne, List.dropWhile_eq_nil_iff]
          push_neg
          exact ⟨'|', hpipe, by decide⟩
        rcases hdw : (d :: u).dropWhile isWS with _ | ⟨h1, r1⟩
        · exact absurd hdw hne
        · have hd : List.dropWhile isWS ((d :: u) ++
              ('<' :: 'b' :: 'r' :: '>' :: '|' :: z0)) =
              (h1 :: r1) ++ ('<' :: 'b' :: 'r' :: '>' :: '|' :: z0) := by
            rw [List.dropWhile_append, hdw]
            simp
          rw [hd]
          have hmem : h1 ∈ (d :: u) := (List.dropWhile_sublist _).subset
            (by rw [hdw]; exact List.mem_cons_self _ _)
          have hne2 : ('<' == h1) = false := by
            rw [beq_eq_false_iff_ne]
            intro he
            exact hlt2 (he ▸ hmem)
          rw [show ((h1 :: r1) ++ ('<' :: 'b' :: 'r' :: '>' :: '|' :: z0)) =
            h1 :: (r1 ++ ('<' :: 'b' :: 'r' :: '>' :: '|' :: z0)) from rfl]
          rw [show ("<br>".data : Str) = '<' :: "br>".data from rfl]
          rw [List.isPrefixOf_cons₂]
          simp [hne2]
      · exact matchBr_cons_ne c _ hc
    show brGo 0 (c :: ((d :: u) ++
        ('<' :: 'b' :: 'r' :: '>' :: '|' :: z0))) =
      (c :: d :: u).dropLast ++ ('|' :: '\n' :: '|' :: brGo 0 z0)
    rw [brGo_zero_none _ _ hmain, ih, List.dropLast_cons₂]
    rfl

theorem intercalate_flatMap (sep : Str) :
    ∀ (x : Str) (rest : List Str),
      List.intercalate sep (x :: rest) =
        x ++ rest.flatMap (fun l => sep ++ l)
  | x, [] => by rw [intercalate_single]; simp
  | x, b :: t => by
    rw [intercalate_cons2 sep x (b :: t) (by simp), List.flatMap_cons,
      intercalate_flatMap sep b t]
    simp [List.append_assoc]

theorem brGo_lines :
    ∀ (rest : List Str) (m : Str), m.getLast? = some '|' → '<' ∉ m →
      (∀ l ∈ rest, 2 ≤ l.length ∧ l.headD ' ' = '|' ∧
        l.getLast? = some '|' ∧ '<' ∉ l) →
      brGo 0 (m ++ rest.flatMap (fun l => "<br>".data ++ l)) =
        m ++ rest.flatMap (fun l => '\n' :: l)
  | [], m, _, hlt, _ => by
    simp only [List.flatMap_nil, List.append_nil]
    exact brGo_no_lt m hlt
  | l :: rest2, m, hlast, hlt, hwf => by
    rcases hwf l (by simp) with ⟨hlen, hhead, hlastl, hltl⟩
    rcases l with _ | ⟨x, ltail⟩
    · simp at hlen
    · have hx : x = '|' := by simpa using hhead
      subst hx
      have hlt2 : ltail ≠ [] := by
        intro he; rw [he] at hlen; simp at hlen
      have hlast2 : ltail.getLast? = some '|' := by
        rcases ltail with _ | ⟨y, u⟩
        · exact absurd rfl hlt2
        · rw [List.getLast?_cons_cons] at hlastl; exact hlastl
      have hltl2 : '<' ∉ ltail :=
        fun hm => hltl (List.mem_cons_of_mem '|' hm)
      have ih := brGo_lines rest2 ltail hlast2 hltl2
        (fun l2 hl2 => hwf l2 (List.mem_cons_of_mem _ hl2))
      have hmd := List.dropLast_append_getLast? '|' hlast
      have harg : ("<br>".data ++ ('|' :: ltail)) ++
          rest2.flatMap (fun l => "<br>".data ++ l) =
          '<' :: 'b' :: 'r' :: '>' :: '|' ::
            (ltail ++ rest2.flatMap (fun l => "<br>".data ++ l)) := by
        simp
      rw [List.flatMap_cons, harg, brGo_match m _ hlast hlt, ih]
      conv_rhs => rw [← hmd]
      simp [List.append_assoc]

theorem brRestore_intercalate (lines : List Str)
    (hwf : ∀ l ∈ lines, 2 ≤ l.length ∧ l.headD ' ' = '|' ∧
      l.getLast? = some '|' ∧ '<' ∉ l) :
    brRestore (List.intercalate "<br>".data lines) =
      List.intercalate ['\n'] lines := by
  rcases lines with _ | ⟨x, rest⟩
  · rfl
  · rcases hwf x (by simp) with ⟨h1, h2, hxl, hxlt⟩
    rw [intercalate_flatMap, intercalate_flatMap]
    exact brGo_lines rest x hxl hxlt
      (fun l hl => hwf l (List.mem_cons_of_mem x hl))

theorem containsSub_infix_iff (pat : Str) :
    ∀ s : Str, containsSub pat s = true ↔ pat <:+: s
  | [] => by
    simp only [containsSub, List.isEmpty_iff]
    exact ⟨fun h => by subst h; exact List.nil_infix,
      fun h => List.eq_nil_of_infix_nil h⟩
  | c :: t => by
    simp only [containsSub, Bool.or_eq_true]
    rw [containsSub_infix_iff pat t]
    constructor
    · rintro (h | h)
      · exact (List.isPrefixOf_iff_prefix.mp h).isInfix
      · exact List.infix_cons h
    · intro h
      rcases List.infix_cons_iff.mp h with h | h
      · exact Or.inl (List.isPrefixOf_iff_prefix.mpr h)
      · exact Or.inr h

theorem prefix_stop (pat x y : Str) (hp : '|' ∉ pat)
    (h : pat <+: (x ++ '|' :: y)) : pat <+: x := by
  rcases le_or_lt pat.length x.length with hle | hlt
  · exact List.prefix_of_prefix_length_le h (List.prefix_append x ('|' :: y))
      hle
  · have h2 : (x ++ ['|']) <+: (x ++ '|' :: y) := by
      rw [List.append_cons x '|' y]
      exact List.prefix_append _ _
    have h3 : (x ++ ['|']) <+: pat :=
      List.prefix_of_prefix_length_le h2 h (by simp; omega)
    exact absurd (h3.subset (by simp)) hp

theorem infix_split (pat : Str) (hp : '|' ∉ pat) :
    ∀ x y : Str, pat <:+: (x ++ '|' :: y) → pat <:+: x ∨ pat <:+: y
  | [], y, h => by
    rcases List.infix_cons_iff.mp (by simpa using h) with h2 | h2
    · rcases pat with _ | ⟨p, ps⟩
      · exact Or.inl List.nil_infix
      · rcases List.cons_prefix_cons.mp h2 with ⟨hp2, h3⟩
        exact absurd hp2.symm (fun he => hp (he ▸ List.mem_cons_self p ps))
    · exact Or.inr h2
  | a :: x2, y, h => by
    rcases List.infix_cons_iff.mp (by simpa using h) with h2 | h2
    · exact Or.inl (prefix_stop pat (a :: x2) y hp h2).isInfix
    · rcases infix_split pat hp x2 y h2 with h3 | h3
      · exact Or.inl (List.infix_cons h3)
      · exact Or.inr h3

theorem infix_intercalate (pat : Str) (hp : '|' ∉ pat) :
    ∀ ls : List Str, pat <:+: List.intercalate ['|'] ls →
      pat = [] ∨ ∃ l ∈ ls, pat <:+: l
  | [], h => Or.inl (List.eq_nil_of_infix_nil h)
  | [a], h => by
    rw [intercalate_single] at h
    exact Or.inr ⟨a, by simp, h⟩
  | a :: b :: t, h => by
    rw [intercalate_cons2 ['|'] a (b :: t) (by simp), List.append_assoc,
      List.singleton_append] at h
    rcases infix_split pat hp a _ h with h2 | h2
    · exact Or.inr ⟨a, by simp, h2⟩
    · rcases infix_intercalate pat hp (b :: t) h2 with h3 | ⟨l, hl, h4⟩
      · exact Or.inl h3
      · exact Or.inr ⟨l, List.mem_cons_of_mem a hl, h4⟩

theorem lowerStr_append (a b : Str) :
    lowerStr (a ++ b) = lowerStr a ++ lowerStr b := by
  simp [lowerStr]

theorem lowerStr_intercalate_pipe :
    ∀ ls : List Str, lowerStr (List.intercalate ['|'] ls) =
      List.intercalate ['|'] (ls.map lowerStr)
  | [] => rfl
  | [a] => by rw [intercalate_single, List.map_singleton, intercalate_single]
  | a :: b :: t => by
    rw [intercalate_cons2 ['|'] a (b :: t) (by simp), List.map_cons,
      intercalate_cons2 ['|'] (lowerStr a) ((b :: t).map lowerStr) (by simp),
      lowerStr_append, lowerStr_append,
      lowerStr_intercalate_pipe (b :: t)]
    rfl

theorem flat_dropLast :
    ∀ cs : List Str, cs ≠ [] →
      (cs.flatMap (fun c => padCell c ++ ['|'])).dropLast =
        List.intercalate ['|'] (cs.map padCell)
  | [], h => absurd rfl h
  | [a], _ => by
    simp only [List.flatMap_cons, List.flatMap_nil, List.append_nil,
      List.map_singleton, intercalate_single]
    exact List.dropLast_concat
  | a :: b :: t, _ => by
    have ih := flat_dropLast (b :: t) (by simp)
    have hne : (b :: t).flatMap (fun c => padCell c ++ ['|']) ≠ [] := by
      simp [List.flatMap_cons, padCell]
    rw [List.flatMap_cons, List.map_cons,
      intercalate_cons2 ['|'] (padCell a) ((b :: t).map padCell) (by simp),
      List.dropLast_append_of_ne_nil _ hne, ih]

theorem mem_intercalate_of_mem (sep : Str) (ch : Char) :
    ∀ (ls : List Str) (l : Str), l ∈ ls → ch ∈ l →
      ch ∈ List.intercalate sep ls
  | [], _, hl, _ => absurd hl (by simp)
  | [a], l, hl, hch => by
    rw [intercalate_single]
    have h2 : l = a := by simpa using hl
    exact h2 ▸ hch
  | a :: b :: t, l, hl, hch => by
    rw [intercalate_cons2 sep a (b :: t) (by simp)]
    rcases List.mem_cons.mp hl with h2 | h2
    · exact List.mem_append.mpr (Or.inl (List.mem_append.mpr
        (Or.inl (h2 ▸ hch))))
    · exact List.mem_append.mpr (Or.inr
        (mem_intercalate_of_mem sep ch (b :: t) l h2 hch))

theorem pyStrip_nil_all_ws (s : Str) (h : pyStrip s = []) :
    ∀ x ∈ s, isWS x = true := by
  intro x hx
  have hsplit := List.takeWhile_append_dropWhile (p := isWS) (l := s)
  have h1 : List.dropWhile isWS ((List.dropWhile isWS s).reverse) = [] := by
    have h2 := congrArg List.reverse h
    unfold pyStrip lstripWS rstripWS at h2
    simpa using h2
  have hall2 := List.dropWhile_eq_nil_iff.mp h1
  rw [← hsplit] at hx
  rcases List.mem_append.mp hx with h2 | h2
  · exact List.mem_takeWhile_imp h2
  · exact hall2 x (by simpa using h2)

theorem isKeywordRow_false_of_divider (line : Str)
    (h : isDividerLine (pyStrip line) = true) :
    isKeywordRow line = false := by
  unfold isKeywordRow
  by_cases hse : startsEndsPipe (pyStrip line) = true
  · simp [hse, h]
  · simp [hse]

theorem isKeywordRow_mkRow_content (cs : List Str) (hne : cs ≠ [])
    (hg : ∀ c ∈ cs, goodCell c) (hcont : rowHasContent cs) :
    isKeywordRow (mkRow cs) = false := by
  have hpf : ∀ c ∈ cs, '|' ∉ c := fun c hc => (goodCell_facts c (hg c hc)).1
  have hinner : ((mkRow cs).drop 1).dropLast =
      List.intercalate ['|'] (cs.map padCell) := by
    rw [show (mkRow cs).drop 1 = cs.flatMap (fun c => padCell c ++ ['|'])
      from rfl]
    exact flat_dropLast cs hne
  have hnocont : ∀ kw ∈ keywordRows,
      containsSub kw (lowerStr (((mkRow cs).drop 1).dropLast)) = false := by
    intro kw hkw
    rw [hinner, lowerStr_intercalate_pipe]
    by_contra hb
    simp only [Bool.not_eq_false] at hb
    have hinf := (containsSub_infix_iff kw _).mp hb
    have hkwpipe : '|' ∉ kw := by
      rcases List.mem_cons.mp hkw with h1 | h1
      · subst h1; decide
      · have h2 : kw = "end of report".data := by simpa [keywordRows] using h1
        subst h2; decide
    rcases infix_intercalate kw hkwpipe _ hinf with hnil | ⟨lp, hlp, hinf2⟩
    · rcases List.mem_cons.mp hkw with h1 | h1
      · subst h1; simp at hnil
      · have h2 : kw = "end of report".data := by simpa [keywordRows] using h1
        subst h2; simp at hnil
    · rcases List.mem_map.mp hlp with ⟨pc, hpc, hlp2⟩
      rcases List.mem_map.mp hpc with ⟨c, hc, hpc2⟩
      subst hlp2
      subst hpc2
      have hbase : ("end of report".data : Str) <:+: lowerStr (padCell c) := by
        rcases List.mem_cons.mp hkw with h1 | h1
        · subst h1
          exact ((List.isPrefixOf_iff_prefix.mp
            (by decide : ("end of report".data : Str).isPrefixOf
              "end of report.".data = true)).isInfix).trans hinf2
        · have h2 : kw = "end of report".data := by simpa [keywordRows] using h1
          subst h2
          exact hinf2
      have hgc := (hg c hc).2.2
      rw [(containsSub_infix_iff _ _).mpr hbase] at hgc
      exact absurd hgc (by simp)
  have h1 := hnocont "end of report.".data (by simp [keywordRows])
  have h2 := hnocont "end of report".data (by simp [keywordRows])
  unfold isKeywordRow
  rw [pyStrip_mkRow]
  by_cases hse : startsEndsPipe (mkRow cs) = true
  · by_cases hdiv : isDividerLine (mkRow cs) = true
    · simp [hse, hdiv]
    · rw [if_neg (fun hc => hc hse), if_neg hdiv]
      show (pyStrip (dropChar '|' (dropChar ':' (dropChar '-'
        (dropChar ' ' (keywordRows.foldl (fun acc kw =>
          if containsSub kw (lowerStr (((mkRow cs).drop 1).dropLast))
          then removeCI kw acc else acc)
          (((mkRow cs).drop 1).dropLast))))))).isEmpty = false
      have hfold : keywordRows.foldl (fun acc kw =>
          if containsSub kw (lowerStr (((mkRow cs).drop 1).dropLast))
          then removeCI kw acc else acc)
          (((mkRow cs).drop 1).dropLast) =
          ((mkRow cs).drop 1).dropLast := by
        show (if containsSub "end of report".data
              (lowerStr (((mkRow cs).drop 1).dropLast))
            then removeCI "end of report".data
              (if containsSub "end of report.".data
                  (lowerStr (((mkRow cs).drop 1).dropLast))
               then removeCI "end of report.".data
                 (((mkRow cs).drop 1).dropLast)
               else ((mkRow cs).drop 1).dropLast)
            else (if containsSub "end of report.".data
                  (lowerStr (((mkRow cs).drop 1).dropLast))
               then removeCI "end of report.".data
                 (((mkRow cs).drop 1).dropLast)
               else ((mkRow cs).drop 1).dropLast)) =
          ((mkRow cs).drop 1).dropLast
        rw [if_neg (show ¬containsSub "end of report.".data
            (lowerStr (((mkRow cs).drop 1).dropLast)) = true by
          rw [h1]; exact Bool.false_ne_true),
          if_neg (show ¬containsSub "end of report".data
            (lowerStr (((mkRow cs).drop 1).dropLast)) = true by
          rw [h2]; exact Bool.false_ne_true)]
      rw [hfold, hinner]
      rcases hcont with ⟨c0, hc0, ch, hch, hcc⟩
      simp only [contentChar, Bool.not_eq_true', Bool.or_eq_false_iff,
        decide_eq_false_iff_not] at hcc
      rcases hcc with ⟨⟨⟨hws, hdash⟩, hcolon⟩, hpipe⟩
      have hsp : ch ≠ ' ' := fun he => by
        rw [he] at hws; exact absurd hws (by decide)
      have hchmem : ch ∈ List.intercalate ['|'] (cs.map padCell) :=
        mem_intercalate_of_mem ['|'] ch (cs.map padCell) (padCell c0)
          (List.mem_map.mpr ⟨c0, hc0, rfl⟩) (by simp [padCell, hch])
      have m1 : ch ∈ dropChar ' ' (List.intercalate ['|'] (cs.map padCell))
        := List.mem_filter.mpr ⟨hchmem, by simp [hsp]⟩
      have m2 : ch ∈ dropChar '-' (dropChar ' '
          (List.intercalate ['|'] (cs.map padCell))) :=
        List.mem_filter.mpr ⟨m1, by simp [hdash]⟩
      have m3 : ch ∈ dropChar ':' (dropChar '-' (dropChar ' '
          (List.intercalate ['|'] (cs.map padCell)))) :=
        List.mem_filter.mpr ⟨m2, by simp [hcolon]⟩
      have m4 : ch ∈ dropChar '|' (dropChar ':' (dropChar '-' (dropChar ' '
          (List.intercalate ['|'] (cs.map padCell))))) :=
        List.mem_filter.mpr ⟨m3, by simp [hpipe]⟩
      by_contra hb
      simp only [Bool.not_eq_false, List.isEmpty_iff] at hb
      have hws2 := pyStrip_nil_all_ws _ hb ch m4
      rw [hws2] at hws
      exact absurd hws (by simp)
  · simp [hse]

theorem tableLines_cells (n : Nat) (header : List Str)
    (rows : List (List Str)) (hn : 1 ≤ n) (hh : wfHeader n header)
    (hr : ∀ r ∈ rows, wfDataRow n r) :
    ∀ l ∈ tableLines n header rows, ∃ cs : List Str,
      l = mkRow cs ∧ cs.length = n ∧ (∀ c ∈ cs, goodCell c) ∧
      (rowHasContent cs ∨ isDividerLine (mkRow cs) = true) := by
  intro l hl
  rcases List.mem_cons.mp hl with h1 | hl
  · exact ⟨header, h1, hh.1, hh.2.1, Or.inl hh.2.2⟩
  · rcases List.mem_cons.mp hl with h1 | hl
    · refine ⟨List.replicate n dashCell, h1, by simp, ?_,
        Or.inr (isDividerLine_divider n hn)⟩
      intro c hc
      rw [List.eq_of_mem_replicate hc]
      exact ⟨by decide, by decide, by decide, by decide⟩
    · rcases List.mem_map.mp hl with ⟨r, hrm, hml⟩
      exact ⟨r, hml.symm, (hr r hrm).1, (hr r hrm).2.1,
        Or.inl (hr r hrm).2.2.1⟩

theorem intercalate_len_ge (sep : Str) (a : Str) (l : List Str) :
    a.length ≤ (List.intercalate sep (a :: l)).length := by
  rcases l with _ | ⟨b, t⟩
  · rw [intercalate_single]
  · rw [intercalate_cons2 sep a (b :: t) (by simp)]
    simp

theorem pyStrip_fix_of_ends (s : Str) (hh : s.headD ' ' = '|')
    (hl : s.getLast? = some '|') : pyStrip s = s := by
  rcases s with _ | ⟨c, t⟩
  · rfl
  · have hc : c = '|' := by simpa using hh
    subst hc
    exact pyStrip_cons_last '|' t '|' (by decide) hl (by decide)

theorem except_bind_ok {e a b : Type} (x : a) (f : a → Except e b) :
    (Except.ok x : Except e a) >>= f = f x := rfl

theorem startsEndsPipe_mkRow (cs : List Str) :
    startsEndsPipe (mkRow cs) = true := by
  rcases hm : mkRow cs with _ | ⟨c, t⟩
  · have h2 := mkRow_headD cs
    rw [hm] at h2
    simp at h2
  · have hc : c = '|' := by
      have h2 := mkRow_headD cs
      rw [hm] at h2
      simpa using h2
    have hl := mkRow_getLast cs
    rw [hm] at hl
    subst hc
    simp only [startsEndsPipe]
    rw [hl]
    simp

theorem step5Go_keep (numCols : Nat) :
    ∀ ls : List Str,
      (∀ l ∈ ls, isKeywordRow l = false ∧ startsEndsPipe l = true ∧
        ((splitChar '|' l).drop 1).dropLast.length = numCols ∧
        pyStrip l = l) →
      step5Go numCols ls = (ls, [])
  | [], _ => rfl
  | line :: rest, h => by
    rcases h line (by simp) with ⟨hk, hse, hc, hp⟩
    have ih := step5Go_keep numCols rest
      (fun l hl => h l (List.mem_cons_of_mem line hl))
    simp only [step5Go]
    rw [if_neg (show ¬isKeywordRow line = true by
        rw [hk]; exact Bool.false_ne_true),
      if_pos hse, if_pos hc, ih, hp]

theorem sanitizeTable_wf (n : Nat) (header : List Str)
    (rows : List (List Str)) (hn : 1 ≤ n) (hh : wfHeader n header)
    (hr : ∀ r ∈ rows, wfDataRow n r) :
    sanitizeTable (serializeTable n header rows) =
      .ok (serializeTable n header rows, []) := by
  have hcells := tableLines_cells n header rows hn hh hr
  have hfacts : ∀ l ∈ tableLines n header rows,
      l.headD ' ' = '|' ∧ l.getLast? = some '|' ∧ 2 ≤ l.length ∧
      pyStrip l = l ∧ '\n' ∉ l ∧ '\\' ∉ l ∧ '<' ∉ l ∧
      List.Chain' (fun x y => ¬(x = '|' ∧ y = '|')) l := by
    intro l hl
    rcases hcells l hl with ⟨cs, rfl, hlen, hg, _⟩
    exact mkRow_line_facts cs
      (by intro he; rw [he] at hlen; simp at hlen; omega) hg
  have hchain : List.Chain' (fun x y => ¬(x = '|' ∧ y = '|'))
      (serializeTable n header rows) := by
    rw [serializeTable_eq]
    exact chain'_intercalate_nl _
      (fun x => ⟨fun hc => absurd hc.2 (by decide),
        fun hc => absurd hc.1 (by decide)⟩)
      _ (fun l hl => (hfacts l hl).2.2.2.2.2.2.2)
  have hS1 : replace2 '|' '|' "‖".data (serializeTable n header rows) =
      serializeTable n header rows := replace2_noop _ _ _ _ hchain
  have hbs : '\\' ∉ serializeTable n header rows := by
    intro hm
    rw [serializeTable_eq] at hm
    rcases mem_intercalate ['\n'] '\\' _ hm with h | ⟨l, hl, hcl⟩
    · simp at h
    · exact (hfacts l hl).2.2.2.2.2.1 hcl
  have hS2 : replace2 '\\' '|' "¦".data (serializeTable n header rows) =
      serializeTable n header rows := replace2_noop_of_not_mem _ _ _ _ hbs
  have hhne : mkRow header ≠ [] := by
    intro he
    have h2 := mkRow_headD header
    rw [he] at h2
    simp at h2
  have hheadS : (serializeTable n header rows).headD ' ' = '|' := by
    rw [serializeTable_eq]
    exact intercalate_headD ['\n'] (mkRow header) _ '|' ' '
      (mkRow_headD header) hhne
  have hlastS : (serializeTable n header rows).getLast? = some '|' := by
    rw [serializeTable_eq]
    exact intercalate_getLast ['\n'] _ '|' (by simp [tableLines])
      (fun l hl => (hfacts l hl).2.1)
  have hlenS : 2 ≤ (serializeTable n header rows).length := by
    rw [serializeTable_eq]
    exact le_trans (hfacts (mkRow header) (by simp [tableLines])).2.2.1
      (intercalate_len_ge ['\n'] (mkRow header) _)
  have htrim : trimPipes (serializeTable n header rows) =
      .ok (serializeTable n header rows) :=
    trimPipes_fix _ hheadS hlastS hlenS
  have hstrip : pyStrip (serializeTable n header rows) =
      serializeTable n header rows := pyStrip_fix_of_ends _ hheadS hlastS
  have hnoNL : ∀ l ∈ tableLines n header rows, '\n' ∉ l :=
    fun l hl => (hfacts l hl).2.2.2.2.1
  have hlines2 : splitChar '\n'
      (List.intercalate ['\n'] (tableLines n header rows)) =
      tableLines n header rows :=
    splitChar_intercalate '\n' _ (by simp [tableLines]) hnoNL
  have hlines : splitChar '\n' (serializeTable n header rows) =
      tableLines n header rows := by
    rw [serializeTable_eq]
    exact hlines2
  have hfilter : (tableLines n header rows).filter
      (fun l => !(pyStrip l).isEmpty) = tableLines n header rows := by
    rw [List.filter_eq_self]
    intro l hl
    rcases hcells l hl with ⟨cs, rfl, h8, h9⟩
    rw [pyStrip_mkRow]
    simp [mkRow]
  have hnc : detectNumCols (tableLines n header rows) = n :=
    detectNumCols_tableLines n header rows hn hh hr
  have hstrip2 : pyStrip (List.intercalate ['\n'] (tableLines n header rows))
      = List.intercalate ['\n'] (tableLines n header rows) := by
    rw [← serializeTable_eq]
    exact hstrip
  have hbr : brRestore (expandBr
      (List.intercalate ['\n'] (tableLines n header rows))) =
      List.intercalate ['\n'] (tableLines n header rows) := by
    rw [expandBr_intercalate _ hnoNL]
    exact brRestore_intercalate _ (fun l hl =>
      ⟨(hfacts l hl).2.2.1, (hfacts l hl).1, (hfacts l hl).2.1,
        (hfacts l hl).2.2.2.2.2.2.1⟩)
  have hstep : step5Go n (tableLines n header rows) =
      (tableLines n header rows, []) := by
    apply step5Go_keep
    intro l hl
    rcases hcells l hl with ⟨cs, rfl, hlen, hg, hcd⟩
    have hcne : cs ≠ [] := by
      intro he; rw [he] at hlen; simp at hlen; omega
    have hpf : ∀ c ∈ cs, '|' ∉ c :=
      fun c hc => (goodCell_facts c (hg c hc)).1
    refine ⟨?_, startsEndsPipe_mkRow cs, ?_, pyStrip_mkRow cs⟩
    · rcases hcd with hcont | hdiv
      · exact isKeywordRow_mkRow_content cs hcne hg hcont
      · exact isKeywordRow_false_of_divider _
          (by rw [pyStrip_mkRow]; exact hdiv)
    · rw [splitChar_mkRow cs hpf]
      simp [List.dropLast_concat, hlen]
  have hn0 : ¬(n = 0) := by omega
  conv_rhs => rw [serializeTable_eq]
  unfold sanitizeTable
  simp only [hS1, hS2, htrim, except_bind_ok, hstrip, hlines, hfilter, hnc,
    if_neg hn0, hbr, hstrip2, hlines2, hstep]

theorem innerPieces_ne_nil (rest : List Str) (h : rest ≠ []) :
    innerPieces rest ≠ [] := by
  rcases rest with _ | ⟨c, t⟩
  · exact absurd rfl h
  · rcases t with _ | ⟨d, u⟩ <;> simp [innerPieces]

theorem pads_eq_inner :
    ∀ rest : List Str, rest ≠ [] →
      List.intercalate ['|'] (rest.map padCell) =
        List.intercalate ['|'] (innerPieces rest) ++ [' ']
  | [], h => absurd rfl h
  | [c], _ => by
    simp only [List.map_singleton, intercalate_single, innerPieces]
    rfl
  | c :: d :: t, _ => by
    have ih := pads_eq_inner (d :: t) (by simp)
    rw [List.map_cons,
      intercalate_cons2 ['|'] (padCell c) ((d :: t).map padCell) (by simp),
      ih,
      show innerPieces (c :: d :: t) = padCell c :: innerPieces (d :: t)
        from rfl,
      intercalate_cons2 ['|'] (padCell c) (innerPieces (d :: t))
        (innerPieces_ne_nil (d :: t) (by simp))]
    simp [List.append_assoc]

theorem pads_eq_rowPieces :
    ∀ cs : List Str, cs ≠ [] →
      List.intercalate ['|'] (cs.map padCell) =
        ' ' :: (List.intercalate ['|'] (rowPieces cs) ++ [' '])
  | [], h => absurd rfl h
  | [c], _ => by
    simp only [List.map_singleton, intercalate_single, rowPieces]
    rfl
  | c :: d :: t, _ => by
    rw [List.map_cons,
      intercalate_cons2 ['|'] (padCell c) ((d :: t).map padCell) (by simp),
      pads_eq_inner (d :: t) (by simp),
      show rowPieces (c :: d :: t) = (c ++ [' ']) :: innerPieces (d :: t)
        from rfl,
      intercalate_cons2 ['|'] (c ++ [' ']) (innerPieces (d :: t))
        (innerPieces_ne_nil (d :: t) (by simp))]
    simp [padCell, List.append_assoc]

theorem pyStrip_space_cons (z : Str) : pyStrip (' ' :: z) = pyStrip z := by
  unfold pyStrip
  rw [lstripWS_space_cons]

theorem pyStrip_append_space (z : Str) :
    pyStrip (z ++ [' ']) = pyStrip z := by
  unfold pyStrip lstripWS
  rw [List.dropWhile_append]
  by_cases h : (z.dropWhile isWS).isEmpty = true
  · rw [if_pos h]
    rw [List.isEmpty_iff] at h
    rw [h]
    rfl
  · rw [if_neg h]
    exact rstripWS_append_space _

theorem padCell_getLast (c : Str) : (padCell c).getLast? = some ' ' := by
  show ((' ' :: c) ++ [' ']).getLast? = some ' '
  rw [List.getLast?_concat]

theorem stripPipes_mkRow (cs : List Str) (hne : cs ≠ []) :
    stripPipes (mkRow cs) =
      (cs.flatMap (fun c => padCell c ++ ['|'])).dropLast := by
  rcases cs with _ | ⟨c1, rest⟩
  · exact absurd rfl hne
  · have h1 : List.dropWhile (fun c => c = '|') (mkRow (c1 :: rest)) =
        (c1 :: rest).flatMap (fun c => padCell c ++ ['|']) := by
      show List.dropWhile (fun c => c = '|') ('|' :: ' ' ::
          ((c1 ++ [' ']) ++ ['|'] ++
            (rest.flatMap (fun c => padCell c ++ ['|'])))) =
        ' ' :: ((c1 ++ [' ']) ++ ['|'] ++
          (rest.flatMap (fun c => padCell c ++ ['|'])))
      simp [List.dropWhile_cons]
    have hlast := flat_rows_getLast (c1 :: rest) (by simp)
    have hdecomp := List.dropLast_append_getLast? '|' hlast
    have hA : ((c1 :: rest).flatMap
        (fun c => padCell c ++ ['|'])).dropLast.getLast? = some ' ' := by
      rw [flat_dropLast _ (by simp)]
      refine intercalate_getLast ['|'] _ ' ' (by simp) ?_
      intro l hl
      rcases List.mem_map.mp hl with ⟨c, hc, hpc⟩
      rw [← hpc]
      exact padCell_getLast c
    have hhead : ((c1 :: rest).flatMap
        (fun c => padCell c ++ ['|'])).dropLast.reverse.head? = some ' ' := by
      rw [List.head?_reverse]
      exact hA
    unfold stripPipes
    rw [h1, ← hdecomp, List.reverse_append]
    rcases hAr : ((c1 :: rest).flatMap
        (fun c => padCell c ++ ['|'])).dropLast.reverse with _ | ⟨a0, ar⟩
    · rw [hAr] at hhead; simp at hhead
    · have ha0 : a0 = ' ' := by
        rw [hAr] at hhead; simpa using hhead
      subst ha0
      rw [show (['|'] : Str).reverse = ['|'] from rfl]
      rw [show (['|'] : Str) ++ (' ' :: ar) = '|' :: ' ' :: ar from rfl]
      rw [show List.dropWhile (fun c => c = '|') ('|' :: ' ' :: ar) =
        ' ' :: ar from by simp [List.dropWhile_cons]]
      rw [← hAr, List.reverse_reverse, List.dropLast_concat]

theorem dropWhile_idem (p : Char → Bool) (l : Str) :
    List.dropWhile p (List.dropWhile p l) = List.dropWhile p l := by
  rcases hd : List.dropWhile p l with _ | ⟨c, t⟩
  · rfl
  · have h2 := List.head?_dropWhile_not p l
    rw [hd] at h2
    simp only [List.head?_cons] at h2
    rw [List.dropWhile_cons]
    simp [h2]

theorem rstripWS_prefix_self (x : Str) : rstripWS x <+: x := by
  have hsuf : List.dropWhile isWS x.reverse <:+ x.reverse :=
    List.dropWhile_suffix _
  have hpre := hsuf.reverse
  rw [List.reverse_reverse] at hpre
  exact hpre

theorem rstripWS_idem (x : Str) : rstripWS (rstripWS x) = rstripWS x := by
  unfold rstripWS
  rw [List.reverse_reverse, dropWhile_idem]

theorem lstrip_head_not_ws (s : Str) (c : Char) (t : Str)
    (h : lstripWS s = c :: t) : isWS c = false := by
  have h2 := List.head?_dropWhile_not isWS s
  rw [show List.dropWhile isWS s = c :: t from h] at h2
  simpa using h2

theorem pyStrip_idem (s : Str) : pyStrip (pyStrip s) = pyStrip s := by
  show rstripWS (lstripWS (rstripWS (lstripWS s))) = rstripWS (lstripWS s)
  rcases hy : rstripWS (lstripWS s) with _ | ⟨c, t⟩
  · rfl
  · have hpre : rstripWS (lstripWS s) <+: lstripWS s := rstripWS_prefix_self _
    rw [hy] at hpre
    rcases hpre with ⟨t2, ht⟩
    have hc : isWS c = false := lstrip_head_not_ws s c (t ++ t2)
      (by rw [← ht]; rfl)
    rw [lstripWS_cons_of_not_ws c t hc, ← hy, rstripWS_idem]

theorem removeMd_no_marks (p : Str) (hstar : '*' ∉ p) (hund : '_' ∉ p) :
    removeMd p = pyStrip p := by
  unfold removeMd
  rw [replace3_noop '*' '*' '*' _ p hstar,
    replace2_noop_of_not_mem '*' '*' _ p hstar,
    replace2_noop_of_not_mem_snd ' ' '_' _ p hund,
    replace2_noop_of_not_mem '_' ' ' _ p hund]

theorem innerPieces_mem_char :
    ∀ (rest : List Str) (p : Str), p ∈ innerPieces rest →
      ∀ ch ∈ p, ch = ' ' ∨ ∃ c ∈ rest, ch ∈ c
  | [], p, hp => by simp [innerPieces] at hp
  | [c], p, hp => by
    have h2 : p = ' ' :: c := by simpa [innerPieces] using hp
    subst h2
    intro ch hch
    rcases List.mem_cons.mp hch with h | h
    · exact Or.inl h
    · exact Or.inr ⟨c, by simp, h⟩
  | c :: d :: t, p, hp => by
    rcases List.mem_cons.mp hp with h | h
    · subst h
      intro ch hch
      simp only [padCell] at hch
      rcases List.mem_cons.mp hch with h | h
      · exact Or.inl h
      · rcases List.mem_append.mp h with h | h
        · exact Or.inr ⟨c, by simp, h⟩
        · exact Or.inl (List.mem_singleton.mp h)
    · intro ch hch
      rcases innerPieces_mem_char (d :: t) p h ch hch with h2 | ⟨c2, hc2, h3⟩
      · exact Or.inl h2
      · exact Or.inr ⟨c2, List.mem_cons_of_mem c hc2, h3⟩

theorem rowPieces_mem_char (cs : List Str) (p : Str) (hp : p ∈ rowPieces cs)
    (hne : cs ≠ []) : ∀ ch ∈ p, ch = ' ' ∨ ∃ c ∈ cs, ch ∈ c := by
  rcases cs with _ | ⟨c1, rest⟩
  · exact absurd rfl hne
  · rcases rest with _ | ⟨d, t⟩
    · have h2 : p = c1 := by simpa [rowPieces] using hp
      subst h2
      exact fun ch hch => Or.inr ⟨p, by simp, hch⟩
    · rcases List.mem_cons.mp hp with h | h
      · subst h
        intro ch hch
        rcases List.mem_append.mp hch with h | h
        · exact Or.inr ⟨c1, by simp, h⟩
        · exact Or.inl (List.mem_singleton.mp h)
      · intro ch hch
        rcases innerPieces_mem_char (d :: t) p h ch hch with
          h2 | ⟨c2, hc2, h3⟩
        · exact Or.inl h2
        · exact Or.inr ⟨c2, List.mem_cons_of_mem c1 hc2, h3⟩

theorem rowPieces_no_char (cs : List Str) (hne : cs ≠ [])
    (hg : ∀ c ∈ cs, goodCell c) (ch : Char) (hch : okChar ch = false)
    (hsp : ch ≠ ' ') : ∀ p ∈ rowPieces cs, ch ∉ p := by
  intro p hp hmem
  rcases rowPieces_mem_char cs p hp hne ch hmem with h | ⟨c, hc, h⟩
  · exact hsp h
  · exact goodCell_not_mem c (hg c hc).1 ch hch h

theorem innerPieces_map_strip :
    ∀ rest : List Str, (∀ c ∈ rest, goodCell c) →
      (innerPieces rest).map (fun p => pyStrip p) = rest
  | [], _ => rfl
  | [c], hg => by
    simp only [innerPieces, List.map_singleton]
    rw [pyStrip_space_cons, (hg c (by simp)).2.1]
  | c :: d :: t, hg => by
    show pyStrip (padCell c) ::
      ((innerPieces (d :: t)).map (fun p => pyStrip p)) = c :: d :: t
    rw [pyStrip_padCell c (hg c (by simp)).2.1,
      innerPieces_map_strip (d :: t)
        (fun x hx => hg x (List.mem_cons_of_mem c hx))]

theorem rowPieces_map_strip (cs : List Str) (hne : cs ≠ [])
    (hg : ∀ c ∈ cs, goodCell c) :
    (rowPieces cs).map (fun p => pyStrip p) = cs := by
  rcases cs with _ | ⟨c1, rest⟩
  · exact absurd rfl hne
  · rcases rest with _ | ⟨d, t⟩
    · show [pyStrip c1] = [c1]
      rw [(hg c1 (by simp)).2.1]
    · show pyStrip (c1 ++ [' ']) ::
        ((innerPieces (d :: t)).map (fun p => pyStrip p)) = c1 :: d :: t
      rw [pyStrip_append_space, (hg c1 (by simp)).2.1,
        innerPieces_map_strip (d :: t)
          (fun x hx => hg x (List.mem_cons_of_mem c1 hx))]

theorem rowPieces_map_removeMd (cs : List Str) (hne : cs ≠ [])
    (hg : ∀ c ∈ cs, goodCell c) :
    (rowPieces cs).map (fun c => pyStrip (removeMd c)) = cs := by
  have h1 : ∀ p ∈ rowPieces cs,
      pyStrip (removeMd p) = pyStrip p := by
    intro p hp
    rw [removeMd_no_marks p
      (rowPieces_no_char cs hne hg '*' (by decide) (by decide) p hp)
      (rowPieces_no_char cs hne hg '_' (by decide) (by decide) p hp)]
    exact pyStrip_idem p
  rw [List.map_congr_left h1]
  exact rowPieces_map_strip cs hne hg

theorem intercalate_head?_eq (sep : Str) (a : Str) (l : List Str)
    (hne : a ≠ []) :
    (List.intercalate sep (a :: l)).head? = a.head? := by
  rcases l with _ | ⟨b, t⟩
  · rw [intercalate_single]
  · rw [intercalate_cons2 sep a (b :: t) (by simp)]
    rcases a with _ | ⟨x, u⟩
    · exact absurd rfl hne
    · rfl

theorem innerPieces_inter_getLast :
    ∀ rest : List Str, (∀ c ∈ rest, goodCell c) → rest ≠ [] →
      ∃ z, (List.intercalate ['|'] (innerPieces rest)).getLast? = some z ∧
        isWS z = false
  | [], _, h => absurd rfl h
  | [c], hg, _ => by
    simp only [innerPieces, intercalate_single]
    have hgc := hg c (by simp)
    have hcne : c ≠ [] := hgc.2.2.2
    rcases hz : c.getLast? with _ | z
    · exact absurd (List.getLast?_eq_none_iff.mp hz) hcne
    · refine ⟨z, ?_, ?_⟩
      · rcases c with _ | ⟨y, u⟩
        · exact absurd rfl hcne
        · rw [List.getLast?_cons_cons]
          exact hz
      · exact last_not_ws_of_rstrip c z (pyStrip_self_parts c hgc.2.1).2 hz
  | c :: d :: t, hg, _ => by
    rcases innerPieces_inter_getLast (d :: t)
      (fun x hx => hg x (List.mem_cons_of_mem c hx)) (by simp) with
      ⟨z, hz, hzw⟩
    refine ⟨z, ?_, hzw⟩
    rw [show innerPieces (c :: d :: t) = padCell c :: innerPieces (d :: t)
        from rfl,
      intercalate_cons2 ['|'] (padCell c) _ (innerPieces_ne_nil _ (by simp)),
      List.append_assoc, List.getLast?_append, List.getLast?_append, hz]
    rfl

theorem core_getLast (cs : List Str) (hne : cs ≠ [])
    (hg : ∀ c ∈ cs, goodCell c) :
    ∃ z, (List.intercalate ['|'] (rowPieces cs)).getLast? = some z ∧
      isWS z = false := by
  rcases cs with _ | ⟨c1, rest⟩
  · exact absurd rfl hne
  · rcases rest with _ | ⟨d, t⟩
    · have hgc := hg c1 (by simp)
      rw [show rowPieces [c1] = [c1] from rfl, intercalate_single]
      rcases hz : c1.getLast? with _ | z
      · exact absurd (List.getLast?_eq_none_iff.mp hz) hgc.2.2.2
      · exact ⟨z, rfl, last_not_ws_of_rstrip c1 z
          (pyStrip_self_parts c1 hgc.2.1).2 hz⟩
    · rcases innerPieces_inter_getLast (d :: t)
        (fun x hx => hg x (List.mem_cons_of_mem c1 hx)) (by simp) with
        ⟨z, hz, hzw⟩
      refine ⟨z, ?_, hzw⟩
      rw [show rowPieces (c1 :: d :: t) =
          (c1 ++ [' ']) :: innerPieces (d :: t) from rfl,
        intercalate_cons2 ['|'] (c1 ++ [' ']) _
          (innerPieces_ne_nil _ (by simp)),
        List.append_assoc, List.getLast?_append, List.getLast?_append, hz]
      rfl

theorem core_head (cs : List Str) (hne : cs ≠ [])
    (hg : ∀ c ∈ cs, goodCell c) :
    ∃ z, (List.intercalate ['|'] (rowPieces cs)).head? = some z ∧
      isWS z = false := by
  rcases cs with _ | ⟨c1, rest⟩
  · exact absurd rfl hne
  · have hgc := hg c1 (by simp)
    rcases hc1 : c1 with _ | ⟨x, u⟩
    · exact absurd hc1 hgc.2.2.2
    · have hxw : isWS x = false := by
        refine head_not_ws_of_lstrip x u ?_
        rw [← hc1]
        exact (pyStrip_self_parts c1 hgc.2.1).1
      rcases rest with _ | ⟨d, t⟩
      · refine ⟨x, ?_, hxw⟩
        rw [show rowPieces [x :: u] = [x :: u] from rfl, intercalate_single]
        rfl
      · refine ⟨x, ?_, hxw⟩
        rw [show rowPieces ((x :: u) :: d :: t) =
            ((x :: u) ++ [' ']) :: innerPieces (d :: t) from rfl,
          intercalate_head?_eq ['|'] ((x :: u) ++ [' ']) _ (by simp)]
        rfl

theorem core_strip_fix (cs : List Str) (hne : cs ≠ [])
    (hg : ∀ c ∈ cs, goodCell c) :
    pyStrip (List.intercalate ['|'] (rowPieces cs)) =
      List.intercalate ['|'] (rowPieces cs) := by
  rcases core_head cs hne hg with ⟨x, hx, hxw⟩
  rcases core_getLast cs hne hg with ⟨z, hz, hzw⟩
  rcases hc : List.intercalate ['|'] (rowPieces cs) with _ | ⟨c, t⟩
  · rfl
  · rw [hc] at hx hz
    have hcx : c = x := by simpa using hx
    subst hcx
    exact pyStrip_cons_last c t z hxw hz hzw

theorem rowPieces_ne_nil (cs : List Str) : rowPieces cs ≠ [] := by
  rcases cs with _ | ⟨c, t⟩
  · simp [rowPieces]
  · rcases t with _ | ⟨d, u⟩ <;> simp [rowPieces]

theorem tableRow_eq (cs : List Str) (hne : cs ≠ [])
    (hg : ∀ c ∈ cs, goodCell c) :
    pyStrip (stripPipes (mkRow cs)) =
      List.intercalate ['|'] (rowPieces cs) := by
  rw [stripPipes_mkRow cs hne, flat_dropLast cs hne,
    pads_eq_rowPieces cs hne, pyStrip_space_cons, pyStrip_append_space,
    core_strip_fix cs hne hg]

theorem tableRow_split (cs : List Str) (hne : cs ≠ [])
    (hg : ∀ c ∈ cs, goodCell c) :
    splitChar '|' (pyStrip (stripPipes (mkRow cs))) = rowPieces cs := by
  rw [tableRow_eq cs hne hg]
  exact splitChar_intercalate '|' (rowPieces cs) (rowPieces_ne_nil cs)
    (rowPieces_no_char cs hne hg '|' (by decide) (by decide))

theorem cols_head_ne (cs : List Str) (hne : cs ≠ [])
    (hg : ∀ c ∈ cs, goodCell c) :
    ((splitChar '|' (pyStrip (stripPipes (mkRow cs)))).map rstripWS).getD 0
      [] ≠ [] := by
  rw [tableRow_split cs hne hg]
  rcases cs with _ | ⟨c1, rest⟩
  · exact absurd rfl hne
  · have hgc := hg c1 (by simp)
    have h1 : rstripWS c1 = c1 := (pyStrip_self_parts c1 hgc.2.1).2
    rcases rest with _ | ⟨d, t⟩
    · show rstripWS c1 ≠ []
      rw [h1]
      exact hgc.2.2.2
    · show rstripWS (c1 ++ [' ']) ≠ []
      rw [rstripWS_append_space, h1]
      exact hgc.2.2.2

theorem findEmptyIdx_none :
    ∀ (rows : List Str) (i : Nat),
      (∀ r ∈ rows, ((splitChar '|' r).map rstripWS).getD 0 [] ≠ []) →
      findEmptyIdx 0 i rows = none
  | [], _, _ => rfl
  | r :: t, i, h => by
    show (if i ≠ 0 ∧ 0 + 1 ≤ ((splitChar '|' r).map rstripWS).length ∧
        ((splitChar '|' r).map rstripWS).getD 0 [] = [] then some i
      else findEmptyIdx 0 (i + 1) t) = none
    rw [if_neg (fun hc => h r (by simp) hc.2.2)]
    exact findEmptyIdx_none t (i + 1)
      (fun x hx => h x (List.mem_cons_of_mem r hx))

theorem mergeLoop_noop (rows : List Str) (hne : rows ≠ [])
    (h : ∀ r ∈ rows, ((splitChar '|' r).map rstripWS).getD 0 [] ≠ []) :
    mergeLoop 0 rows = .ok rows := by
  have hmo : mergeOnce 0 rows = .ok none := by
    unfold mergeOnce
    rw [findEmptyIdx_none rows 0 h]
  rcases rows with _ | ⟨r, t⟩
  · exact absurd rfl hne
  · show mergeLoopGo 0 (r :: t).length (r :: t) = .ok (r :: t)
    rw [show (r :: t).length = t.length + 1 from rfl]
    simp only [mergeLoopGo, hmo]

theorem rowToRecord_wf (ts : List FieldType) (cs : List Str)
    (hne : cs ≠ []) (hg : ∀ c ∈ cs, goodCell c) :
    rowToRecord ts (pyStrip (stripPipes (mkRow cs))) =
      (ts.zip cs).map (fun q => convertCol q.1 q.2) := by
  show (ts.zip ((splitChar '|' (pyStrip (stripPipes (mkRow cs)))).map
      (fun c => pyStrip (removeMd c)))).map (fun q => convertCol q.1 q.2)
    = (ts.zip cs).map (fun q => convertCol q.1 q.2)
  rw [tableRow_split cs hne hg, rowPieces_map_removeMd cs hne hg]

theorem processTable_wf (ts : List FieldType) (rows : List (List Str))
    (hrne : rows ≠ []) (hts : ts ≠ [])
    (hg : ∀ r ∈ rows, wfDataRow ts.length r) :
    processTable ts (some 0) (rows.map mkRow) =
      .ok (rows.map (fun r => (ts.zip r).map (fun q => convertCol q.1 q.2)))
    := by
  have hfacts : ∀ r ∈ rows, r ≠ [] ∧ ∀ c ∈ r, goodCell c := by
    intro r hr
    refine ⟨?_, (hg r hr).2.1⟩
    intro he
    have hl := (hg r hr).1
    rw [he] at hl
    exact hts (List.length_eq_zero.mp hl.symm)
  have hTR : (rows.map mkRow).map (fun r => pyStrip (stripPipes r)) =
      rows.map (fun cs => pyStrip (stripPipes (mkRow cs))) := by
    rw [List.map_map]
    rfl
  have hml : mergeLoop 0
      (rows.map (fun cs => pyStrip (stripPipes (mkRow cs)))) =
      .ok (rows.map (fun cs => pyStrip (stripPipes (mkRow cs)))) := by
    refine mergeLoop_noop _ (by simpa using hrne) ?_
    intro r hr
    rcases List.mem_map.mp hr with ⟨cs, hcs, hrw⟩
    rw [← hrw]
    exact cols_head_ne cs (hfacts cs hcs).1 (hfacts cs hcs).2
  show (mergeLoop 0 ((rows.map mkRow).map (fun r => pyStrip (stripPipes r)))
      >>= fun rows2 => pure (rows2.map (rowToRecord ts))) =
    Except.ok (rows.map (fun r => (ts.zip r).map
      (fun q => convertCol q.1 q.2)))
  rw [hTR, hml, except_bind_ok]
  show Except.ok ((rows.map
      (fun cs => pyStrip (stripPipes (mkRow cs)))).map (rowToRecord ts)) = _
  rw [List.map_map]
  congr 1
  refine List.map_congr_left ?_
  intro r hr
  exact rowToRecord_wf ts r (hfacts r hr).1 (hfacts r hr).2

theorem detectBlocks_eq (mdText : Str) :
    detectBlocks mdText =
      (let st := (splitChar '\n' mdText).foldl detectStep ([], [], false)
       (if st.2.1.isEmpty then st.1 else st.1 ++ [st.2.1], st.2.2)) := rfl

theorem divtest_content (cs : List Str) (hcont : rowHasContent cs) :
    (pyStrip (dropChar ':' (dropChar '-' (dropChar '|'
      (mkRow cs))))).isEmpty = false := by
  rcases hcont with ⟨c0, hc0, ch, hch, hcc⟩
  simp only [contentChar, Bool.not_eq_true', Bool.or_eq_false_iff,
    decide_eq_false_iff_not] at hcc
  rcases hcc with ⟨⟨⟨hws, hdash⟩, hcolon⟩, hpipe⟩
  have hmem : ch ∈ mkRow cs := by
    unfold mkRow
    exact List.mem_cons_of_mem _ (List.mem_flatMap.mpr ⟨c0, hc0,
      by simp [padCell, hch]⟩)
  have m1 : ch ∈ dropChar '|' (mkRow cs) :=
    List.mem_filter.mpr ⟨hmem, by simp [hpipe]⟩
  have m2 : ch ∈ dropChar '-' (dropChar '|' (mkRow cs)) :=
    List.mem_filter.mpr ⟨m1, by simp [hdash]⟩
  have m3 : ch ∈ dropChar ':' (dropChar '-' (dropChar '|' (mkRow cs))) :=
    List.mem_filter.mpr ⟨m2, by simp [hcolon]⟩
  by_contra hb
  simp only [Bool.not_eq_false, List.isEmpty_iff] at hb
  have hws2 := pyStrip_nil_all_ws _ hb ch m3
  rw [hws2] at hws
  exact absurd hws (by simp)

theorem divtest_divider (n : Nat) :
    (pyStrip (dropChar ':' (dropChar '-' (dropChar '|'
      (mkRow (List.replicate n dashCell)))))).isEmpty = true := by
  have hall : ∀ x ∈ dropChar ':' (dropChar '-' (dropChar '|'
      (mkRow (List.replicate n dashCell)))), isWS x = true := by
    intro x hx
    have h3 := List.mem_filter.mp hx
    have h2 := List.mem_filter.mp h3.1
    have h1 := List.mem_filter.mp h2.1
    rcases mkRow_mem _ x h1.1 with h | h | ⟨c, hc, h⟩
    · exfalso
      have h5 := h1.2
      rw [h] at h5
      simp at h5
    · rw [h]; decide
    · rw [List.eq_of_mem_replicate hc] at h
      have h4 : x = '-' := by simpa [dashCell] using h
      exfalso
      have h5 := h2.2
      rw [h4] at h5
      simp at h5
  have h0 : lstripWS (dropChar ':' (dropChar '-' (dropChar '|'
      (mkRow (List.replicate n dashCell))))) = [] := by
    unfold lstripWS
    rw [List.dropWhile_eq_nil_iff]
    exact hall
  show (rstripWS (lstripWS (dropChar ':' (dropChar '-' (dropChar '|'
      (mkRow (List.replicate n dashCell))))))).isEmpty = true
  rw [h0]
  rfl

theorem detectStep_header (cs : List Str) (hcont : rowHasContent cs)
    (tables : List (List Str)) (cur : List Str) (found : Bool) :
    detectStep (tables, cur, found) (mkRow cs) =
      (tables, cur ++ [mkRow cs], found) := by
  show (if startsEndsPipe (pyStrip (mkRow cs)) then
      if (pyStrip (dropChar ':' (dropChar '-' (dropChar '|'
          (pyStrip (mkRow cs)))))).isEmpty then
        if cur.length = 1 then (tables, [], true)
        else (tables, cur, true)
      else (tables, cur ++ [pyStrip (mkRow cs)], found)
    else if (pyStrip (mkRow cs)).isEmpty then (tables, cur, found)
    else if !cur.isEmpty then (tables ++ [cur], [], found)
    else (tables, cur, found)) = (tables, cur ++ [mkRow cs], found)
  rw [pyStrip_mkRow]
  rw [if_pos (startsEndsPipe_mkRow cs),
    if_neg (show ¬(pyStrip (dropChar ':' (dropChar '-' (dropChar '|'
        (mkRow cs))))).isEmpty = true by
      rw [divtest_content cs hcont]; exact Bool.false_ne_true)]

theorem detectStep_divider (n : Nat) (tables : List (List Str))
    (cur : List Str) (found : Bool) (hcur : cur.length = 1) :
    detectStep (tables, cur, found) (mkRow (List.replicate n dashCell)) =
      (tables, [], true) := by
  show (if startsEndsPipe (pyStrip (mkRow (List.replicate n dashCell))) then
      if (pyStrip (dropChar ':' (dropChar '-' (dropChar '|'
          (pyStrip (mkRow (List.replicate n dashCell))))))).isEmpty then
        if cur.length = 1 then (tables, [], true)
        else (tables, cur, true)
      else (tables, cur ++ [pyStrip (mkRow (List.replicate n dashCell))],
        found)
    else if (pyStrip (mkRow (List.replicate n dashCell))).isEmpty then
      (tables, cur, found)
    else if !cur.isEmpty then (tables ++ [cur], [], found)
    else (tables, cur, found)) = (tables, [], true)
  rw [pyStrip_mkRow]
  rw [if_pos (startsEndsPipe_mkRow _), if_pos (divtest_divider n),
    if_pos hcur]

theorem detectStep_fold_data :
    ∀ (ls : List (List Str)) (tables : List (List Str)) (cur : List Str)
      (found : Bool),
      (∀ cs ∈ ls, rowHasContent cs) →
      (ls.map mkRow).foldl detectStep (tables, cur, found) =
        (tables, cur ++ ls.map mkRow, found)
  | [], tables, cur, found, _ => by simp
  | cs :: rest, tables, cur, found, h => by
    rw [List.map_cons, List.foldl_cons, detectStep_header cs (h cs (by simp)),
      detectStep_fold_data rest tables (cur ++ [mkRow cs]) found
        (fun x hx => h x (List.mem_cons_of_mem cs hx))]
    simp

theorem detectBlocks_wf (n : Nat) (header : List Str)
    (rows : List (List Str)) (hn : 1 ≤ n) (hrne : rows ≠ [])
    (hh : wfHeader n header) (hr : ∀ r ∈ rows, wfDataRow n r) :
    detectBlocks (serializeTable n header rows) =
      ([rows.map mkRow], true) := by
  have hcells := tableLines_cells n header rows hn hh hr
  have hnoNL : ∀ l ∈ tableLines n header rows, '\n' ∉ l := by
    intro l hl
    rcases hcells l hl with ⟨cs, rfl, h7, hg, h8⟩
    exact mkRow_not_mem cs '\n' (by decide) (by decide)
      (fun c hc => (goodCell_facts c (hg c hc)).2.2.2.1)
  have hlines : splitChar '\n' (serializeTable n header rows) =
      tableLines n header rows := by
    rw [serializeTable_eq]
    exact splitChar_intercalate '\n' _ (by simp [tableLines]) hnoNL
  have hfold : (tableLines n header rows).foldl detectStep ([], [], false) =
      ([], rows.map mkRow, true) := by
    show ((mkRow header :: mkRow (List.replicate n dashCell) ::
        rows.map mkRow)).foldl detectStep ([], [], false) =
      ([], rows.map mkRow, true)
    rw [List.foldl_cons, detectStep_header header hh.2.2,
      List.foldl_cons, detectStep_divider n _ _ _ (by simp),
      detectStep_fold_data rows [] [] true
        (fun cs hcs => (hr cs hcs).2.2.1)]
    rfl
  have hmne : (rows.map mkRow).isEmpty = false := by
    rcases rows with _ | ⟨r, t⟩
    · exact absurd rfl hrne
    · rfl
  rw [detectBlocks_eq, hlines, hfold]
  show (if (rows.map mkRow).isEmpty then ([] : List (List Str))
      else [] ++ [rows.map mkRow], true) = ([rows.map mkRow], true)
  rw [if_neg (by rw [hmne]; exact Bool.false_ne_true)]
  rfl

theorem except_mapM_singleton {a b : Type} (f : a → Except Unit b)
    (x : a) (y : b) (h : f x = .ok y) : [x].mapM f = .ok [y] := by
  show List.mapM.loop f [x] [] = .ok [y]
  simp only [List.mapM.loop, h, except_bind_ok]
  rfl

/-- C1 (amended): for every non-empty all-string-free schema `ts`, a
serialized well-formed markdown table whose header and `M ≥ 1` data rows
each hold `ts.length` well-formed cells is extracted to exactly `M`
records, the `i`-th record coercing the `i`-th data row positionally onto
the schema fields, with no Defective Lines.  (The claim as frozen also
asserts this output shape for `M = 0`, which `c1_counterexample` refutes:
the code then returns the bare empty list of line 720 instead of the
`(records, defective_lines)` pair.) -/
theorem c1_wellformed_extraction (ts : List FieldType) (header : List Str)
    (rows : List (List Str)) (hts : ts ≠ []) (hrows : rows ≠ [])
    (hh : wfHeader ts.length header)
    (hr : ∀ r ∈ rows, wfDataRow ts.length r) :
    mdTable (serializeTable ts.length header rows) ts (some 0) =
      MdResult.pair
        (rows.map (fun r => (ts.zip r).map (fun q => convertCol q.1 q.2)))
        [] := by
  have hn : 1 ≤ ts.length := List.length_pos.mpr hts
  have hsan := sanitizeTable_wf ts.length header rows hn hh hr
  have hdb := detectBlocks_wf ts.length header rows hn hrows hh hr
  have hpt := processTable_wf ts rows hrows hts hr
  rw [mdTable_ok_eq _ _ _ hsan ts (some 0), hdb]
  show (if ([rows.map mkRow] : List (List Str)).isEmpty then
      (if (true : Bool) then MdResult.emptyBare else MdResult.nullRes)
    else match ([rows.map mkRow] : List (List Str)).mapM
        (processTable ts (some 0)) with
      | .error _ => MdResult.err
      | .ok recss => MdResult.pair recss.flatten []) =
    MdResult.pair
      (rows.map (fun r => (ts.zip r).map (fun q => convertCol q.1 q.2))) []
  rw [if_neg (show ¬([rows.map mkRow] : List (List Str)).isEmpty = true
      by simp),
    except_mapM_singleton (processTable ts (some 0)) _ _ hpt]
  simp

/-- Witness for C1: a concrete two-column table with one data row,
extracted to one record with positional string and integer coercion. -/
theorem c1_wellformed_extraction_witness :
    ([FieldType.tStr, FieldType.tInt] : List FieldType) ≠ [] ∧
    ([["a".data, "7".data]] : List (List Str)) ≠ [] ∧
    wfHeader 2 ["h".data, "n".data] ∧
    (∀ r ∈ [["a".data, "7".data]], wfDataRow 2 r) ∧
    mdTable (serializeTable 2 ["h".data, "n".data] [["a".data, "7".data]])
      [FieldType.tStr, FieldType.tInt] (some 0) =
      MdResult.pair
        (([["a".data, "7".data]] : List (List Str)).map
          (fun r => (([FieldType.tStr, FieldType.tInt] : List FieldType).zip
            r).map (fun q => convertCol q.1 q.2)))
        [] :=
  ⟨by decide, by decide, by decide, by decide,
    c1_wellformed_extraction [FieldType.tStr, FieldType.tInt]
      ["h".data, "n".data] [["a".data, "7".data]]
      (by decide) (by decide) (by decide) (by decide)⟩
